import Mathlib

/-!
# IOQueue: a lock-free multi-producer / single-consumer FIFO queue

A shallow embedding of `io_queue.hpp` (class `IOQueue<T>`).

* The free store is a finite map from addresses to nodes; a `Node*` is an
  `Option Nat` (`none` is the null pointer).  Dereferencing a null pointer or
  the address of a node that has been deleted is undefined behaviour and is
  reported as a `Fault`.
* The member functions are given twice: as whole operations executed by one
  thread without interference (`push`, `pop`, `size`, ...), and as the
  sequence of their individual sequentially consistent atomic steps
  (`pushStep`, `popStep`), which are interleaved by a scheduler.
* Loops carry a fuel argument that bounds the number of iterations; running
  out of fuel is reported as `Fault.outOfFuel`.
-/

namespace IOQueue

/-! ## Data model -/

/-- A `Node*`: `none` is the null pointer, `some a` the address `a`. -/
abbrev Ptr := Option Nat

/-- The `struct Node`: one item and the atomic `next` pointer. -/
structure Node (T : Type) where
  item : T
  next : Ptr

/-- The free store: the node living at each address, `none` where no node is alive. -/
abbrev Heap (T : Type) := Nat → Option (Node T)

/-- The `unsigned int` modulus used by `size()`. -/
def UINT_MOD : Nat := 2 ^ 32

/-- What can go wrong in an execution of the typed surface. -/
inductive Fault where
  /-- a null pointer was dereferenced -/
  | nullDeref
  /-- a pointer to a deleted (or never allocated) node was dereferenced or deleted -/
  | dangling
  /-- a loop did not finish within the given number of iterations -/
  | outOfFuel
  deriving DecidableEq, Repr

/-- How a call of the public `push` ends: it returns, or the `new Node(item)` expression throws. -/
inductive Completion where
  | returned
  | threw_bad_alloc
  deriving DecidableEq, Repr

/-- The queue object (`head`, `tail`) together with the free store its nodes live in. -/
structure State (T : Type) where
  heap : Heap T
  head : Ptr
  tail : Ptr

/-- Pointer dereference `p->`. -/
def deref {T : Type} (h : Heap T) (p : Ptr) : Except Fault (Node T) :=
  match p with
  | none => .error .nullDeref
  | some a =>
    match h a with
    | none => .error .dangling
    | some n => .ok n

/-- The member `Node::get_next`: `next.load()`. -/
def get_next {T : Type} (h : Heap T) (p : Ptr) : Except Fault Ptr :=
  match deref h p with
  | .error e => .error e
  | .ok n => .ok n.next

/-- The member `Node::set_next`: `next.store(node)`. -/
def set_next {T : Type} (h : Heap T) (p : Ptr) (node : Ptr) : Except Fault (Heap T) :=
  match p with
  | none => .error .nullDeref
  | some a =>
    match h a with
    | none => .error .dangling
    | some n => .ok (Function.update h a (some { n with next := node }))

/-- The expression `delete p`: a no-op on the null pointer, otherwise the node is destroyed. -/
def delete {T : Type} (h : Heap T) (p : Ptr) : Except Fault (Heap T) :=
  match p with
  | none => .ok h
  | some a =>
    match h a with
    | none => .error .dangling
    | some _ => .ok (Function.update h a none)

/-! ## Whole operations (one thread, no interference) -/

/-- The constructor `IOQueue()`: `head(0), tail(0)`, in a program whose free store is `h`. -/
def new {T : Type} (h : Heap T) : State T :=
  { heap := h, head := none, tail := none }

/-- The conversion `operator bool`: `head.load() != 0`. -/
def has_front {T : Type} (q : State T) : Bool :=
  q.head != none

/-- The member `front`: `head.load()->item`. -/
def front {T : Type} (q : State T) : Except Fault T :=
  match deref q.heap q.head with
  | .error e => .error e
  | .ok n => .ok n.item

/-- The wait loop of `pop`: `new_head = popped->get_next(); while(!new_head) new_head = popped->get_next();`.
`fuel` bounds the number of executions of the loop body. -/
def waitNext {T : Type} (h : Heap T) (popped : Ptr) : Nat → Except Fault Nat
  | 0 =>
    match get_next h popped with
    | .error e => .error e
    | .ok (some n) => .ok n
    | .ok none => .error .outOfFuel
  | fuel + 1 =>
    match get_next h popped with
    | .error e => .error e
    | .ok (some n) => .ok n
    | .ok none => waitNext h popped fuel

/-- The member `pop`. -/
def pop {T : Type} (fuel : Nat) (q : State T) : Except Fault (State T) :=
  let popped := q.head
  if q.tail = popped then
    -- tail.compare_exchange_strong(compare, 0) succeeded
    let q1 : State T := { q with tail := none }
    -- head.compare_exchange_strong(compare, 0)
    let q2 : State T := if q1.head = popped then { q1 with head := none } else q1
    match delete q2.heap popped with
    | .error e => .error e
    | .ok h => .ok { q2 with heap := h }
  else
    match waitNext q.heap popped fuel with
    | .error e => .error e
    | .ok new_head =>
      match delete q.heap popped with
      | .error e => .error e
      | .ok h => .ok { heap := h, head := some new_head, tail := q.tail }

/-- The private member `push(Node* node)`. -/
def pushNode {T : Type} (q : State T) (node : Ptr) : Except Fault (State T) :=
  let old_tail := q.tail
  let q1 : State T := { q with tail := node }
  match old_tail with
  | some o =>
    match set_next q1.heap (some o) node with
    | .error e => .error e
    | .ok h => .ok { q1 with heap := h }
  | none => .ok { q1 with head := node }

/-- The public members `push(const T&)` and `push(T&&)`: `push(new Node(item))`.
`fresh` is the outcome of the `new` expression: `none` when the allocation or the
construction of the item throws, `some a` when the node is created at address `a`. -/
def push {T : Type} (q : State T) (item : T) (fresh : Option Nat) :
    Except Fault (Completion × State T) :=
  match fresh with
  | none => .ok (.threw_bad_alloc, q)
  | some a =>
    match pushNode { q with heap := Function.update q.heap a (some { item := item, next := none }) }
        (some a) with
    | .error e => .error e
    | .ok q' => .ok (.returned, q')

/-- The loop of `size`: `while(node) { ++count; node = node->get_next(); }` on an `unsigned int` counter. -/
def sizeLoop {T : Type} (h : Heap T) : Nat → Ptr → Nat → Except Fault Nat
  | _, none, count => .ok count
  | 0, some _, _ => .error .outOfFuel
  | fuel + 1, some a, count =>
    match get_next h (some a) with
    | .error e => .error e
    | .ok nxt => sizeLoop h fuel nxt ((count + 1) % UINT_MOD)

/-- The member `size`. -/
def size {T : Type} (fuel : Nat) (q : State T) : Except Fault Nat :=
  sizeLoop q.heap fuel q.head 0

/-- The destructor `~IOQueue` (and `clear`): `while(*this) pop();`.
`fuel` bounds the number of executions of the loop body, `popFuel` is handed to each `pop`. -/
def clear {T : Type} (popFuel : Nat) : Nat → State T → Except Fault (State T)
  | 0, q => if has_front q then .error .outOfFuel else .ok q
  | fuel + 1, q =>
    if has_front q then
      match pop popFuel q with
      | .error e => .error e
      | .ok q' => clear popFuel fuel q'
    else .ok q

/-! ## Sequential histories -/

/-- One completed call of a sequential history. -/
inductive Op (T : Type) where
  /-- a call `push(item)` that returned, its node created at address `a` -/
  | push (a : Nat) (item : T)
  /-- a call `pop()` that returned -/
  | pop

/-- The items pushed and not yet popped after a history (oldest call first):
a push appends its item at the end, a pop removes the first item. -/
def pending {T : Type} (tr : List (Op T)) : List T :=
  tr.foldl (fun xs op => match op with
    | .push _ x => xs ++ [x]
    | .pop => xs.tail) []

/-- Number of completed pushes of a history. -/
def pushes {T : Type} (tr : List (Op T)) : Nat :=
  (tr.filter (fun op => match op with | .push _ _ => true | .pop => false)).length

/-- Number of completed pops of a history. -/
def pops {T : Type} (tr : List (Op T)) : Nat :=
  (tr.filter (fun op => match op with | .push _ _ => false | .pop => true)).length

/-- The states reached from the constructor by completed pushes and pops, each pop
called when `has_front()` is true, together with the history that leads there
(oldest call first).  The allocator hands out an address at which no node is alive. -/
inductive Reach {T : Type} : List (Op T) → State T → Prop where
  | ctor (h : Heap T) : Reach [] (new h)
  | push {tr : List (Op T)} {q : State T} (a : Nat) (x : T) (q' : State T) :
      Reach tr q → q.heap a = none → push q x (some a) = .ok (.returned, q') →
      Reach (tr ++ [.push a x]) q'
  | pop {tr : List (Op T)} {q : State T} (fuel : Nat) (q' : State T) :
      Reach tr q → has_front q = true → pop fuel q = .ok q' →
      Reach (tr ++ [.pop]) q'

/-- The nodes `chain` (address and item, oldest first) are alive in `h`, each holding its
item and pointing to the next one, the last one pointing nowhere. -/
def Linked {T : Type} (h : Heap T) : List (Nat × T) → Prop
  | [] => True
  | (a, x) :: rest => h a = some { item := x, next := rest.head?.map Prod.fst } ∧ Linked h rest

/-- The queue `q` holds exactly the chain of nodes `chain`: pairwise distinct, linked from
`head`, ending at `tail`. -/
def Holds {T : Type} (q : State T) (chain : List (Nat × T)) : Prop :=
  (chain.map Prod.fst).Nodup ∧ Linked q.heap chain ∧
    q.head = chain.head?.map Prod.fst ∧ q.tail = chain.getLast?.map Prod.fst

/-- Follow the `next` links from `p`, collecting address and item of every node visited,
for at most `fuel` nodes. -/
def walk {T : Type} (h : Heap T) : Nat → Ptr → Except Fault (List (Nat × T))
  | _, none => .ok []
  | 0, some _ => .error .outOfFuel
  | fuel + 1, some a =>
    match deref h (some a) with
    | .error e => .error e
    | .ok n =>
      match walk h fuel n.next with
      | .error e => .error e
      | .ok rest => .ok ((a, n.item) :: rest)

/-- Push the items `avs` in order, the node of each created at the paired address. -/
def pushAll {T : Type} : State T → List (Nat × T) → Except Fault (State T)
  | q, [] => .ok q
  | q, (a, x) :: rest =>
    match push q x (some a) with
    | .error e => .error e
    | .ok (_, q') => pushAll q' rest

/-- Perform `n` rounds of `has_front()`, `front()`, `pop()`, recording what `has_front` and
`front` returned in each round. -/
def rounds {T : Type} (popFuel : Nat) : Nat → State T → Except Fault (List (Bool × T) × State T)
  | 0, q => .ok ([], q)
  | n + 1, q =>
    match front q with
    | .error e => .error e
    | .ok x =>
      match pop popFuel q with
      | .error e => .error e
      | .ok q' =>
        match rounds popFuel n q' with
        | .error e => .error e
        | .ok (obs, q'') => .ok ((has_front q, x) :: obs, q'')

/-! ## Atomic steps -/

/-- Control points of a running `pop()`: the atomic operation to be executed next. -/
inductive PopPc where
  /-- `popped = head.load()` -/
  | loadHead
  /-- `tail.compare_exchange_strong(compare, 0)` with `compare == popped` -/
  | casTail (popped : Ptr)
  /-- `head.compare_exchange_strong(compare, 0)` with `compare == popped` -/
  | casHead (popped : Ptr)
  /-- `new_head = popped->get_next()`, repeated while the result is null -/
  | readNext (popped : Ptr)
  /-- `head.store(new_head)` -/
  | storeHead (popped : Ptr) (new_head : Nat)
  /-- `delete popped` -/
  | del (popped : Ptr)
  /-- the call has returned -/
  | done
  deriving DecidableEq, Repr

/-- Control points of a running `push(Node* node)`. -/
inductive PushPc where
  /-- `old_tail = tail.exchange(node)` -/
  | exchange (node : Ptr)
  /-- the store that follows: `old_tail->set_next(node)` or `head.store(node)` -/
  | link (node : Ptr) (old_tail : Ptr)
  /-- the call has returned -/
  | done
  deriving DecidableEq, Repr

/-- One atomic step of `pop()`.  A call that has returned stays where it is. -/
def popStep {T : Type} (q : State T) : PopPc → Except Fault (State T × PopPc)
  | .loadHead => .ok (q, .casTail q.head)
  | .casTail popped =>
    if q.tail = popped then .ok ({ q with tail := none }, .casHead popped)
    else .ok (q, .readNext popped)
  | .casHead popped =>
    if q.head = popped then .ok ({ q with head := none }, .del popped)
    else .ok (q, .del popped)
  | .readNext popped =>
    match get_next q.heap popped with
    | .error e => .error e
    | .ok (some n) => .ok (q, .storeHead popped n)
    | .ok none => .ok (q, .readNext popped)
  | .storeHead popped new_head => .ok ({ q with head := some new_head }, .del popped)
  | .del popped =>
    match delete q.heap popped with
    | .error e => .error e
    | .ok h => .ok ({ q with heap := h }, .done)
  | .done => .ok (q, .done)

/-- One atomic step of `push(Node* node)`.  A call that has returned stays where it is. -/
def pushStep {T : Type} (q : State T) : PushPc → Except Fault (State T × PushPc)
  | .exchange node => .ok ({ q with tail := node }, .link node q.tail)
  | .link node (some o) =>
    match set_next q.heap (some o) node with
    | .error e => .error e
    | .ok h => .ok ({ q with heap := h }, .done)
  | .link node none => .ok ({ q with head := node }, .done)
  | .done => .ok (q, .done)

/-- Let a call of `pop()` that is at control point `pc` take `n` atomic steps on its own. -/
def popRun {T : Type} : Nat → State T → PopPc → Except Fault (State T × PopPc)
  | 0, q, pc => .ok (q, pc)
  | n + 1, q, pc =>
    match popStep q pc with
    | .error e => .error e
    | .ok (q', pc') => popRun n q' pc'

/-- Let a call of `push(Node*)` that is at control point `pc` take `n` atomic steps on its own. -/
def pushRun {T : Type} : Nat → State T → PushPc → Except Fault (State T × PushPc)
  | 0, q, pc => .ok (q, pc)
  | n + 1, q, pc =>
    match pushStep q pc with
    | .error e => .error e
    | .ok (q', pc') => pushRun n q' pc'

/-- One `pop()` racing with one `push(Node*)`: the memory and the control point of each call. -/
structure Race (T : Type) where
  mem : State T
  popPc : PopPc
  pushPc : PushPc

/-- The scheduler lets the popping thread (`true`) or the pushing thread (`false`) take its
next atomic step. -/
def raceStep {T : Type} (c : Race T) (consumer : Bool) : Except Fault (Race T) :=
  if consumer then
    match popStep c.mem c.popPc with
    | .error e => .error e
    | .ok (m, pc) => .ok { c with mem := m, popPc := pc }
  else
    match pushStep c.mem c.pushPc with
    | .error e => .error e
    | .ok (m, pc) => .ok { c with mem := m, pushPc := pc }

/-- Run a whole schedule. -/
def race {T : Type} : List Bool → Race T → Except Fault (Race T)
  | [], c => .ok c
  | b :: sched, c =>
    match raceStep c b with
    | .error e => .error e
    | .ok c' => race sched c'

/-! ## Many producers and one consumer -/

/-- Control points of the consumer thread, which runs
`if (queue) { use(queue.front()); queue.pop(); }` again and again. -/
inductive ConsPc where
  /-- about to evaluate `if (queue)` -/
  | check
  /-- `operator bool` returned true; about to call `front()` -/
  | callFront
  /-- inside `pop()` -/
  | inPop (pc : PopPc)
  deriving DecidableEq, Repr

/-- The whole system: the shared memory, the control point of the consumer thread and of
every producer thread (`done` for a producer that is in no call of `push`), and two
histories that no step reads. -/
structure Sys (T : Type) where
  mem : State T
  cons : ConsPc
  prod : Nat → PushPc
  /-- history: the items pushed, in the order of the tail exchanges -/
  pushed : List T
  /-- history: the items the consumer obtained from `front()`, in order -/
  popped : List T

/-- What the scheduler can let happen next. -/
inductive Action (T : Type) where
  /-- the consumer thread takes its next atomic step -/
  | consumer
  /-- producer `p`, in no call, calls `push(x)`; `new Node(x)` creates the node at the free
  address `a` -/
  | call (p : Nat) (a : Nat) (x : T)
  /-- producer `p` takes the next atomic step of its call -/
  | producer (p : Nat)

/-- The item of the node `p` points to, as a list: what a tail exchange adds to the history. -/
def itemAt {T : Type} (h : Heap T) (p : Ptr) : List T :=
  match deref h p with
  | .error _ => []
  | .ok n => [n.item]

/-- One step of the system.  An action that is not enabled (a `call` by a producer that is in
a call, or at an address in use) changes nothing. -/
def sysStep {T : Type} (s : Sys T) : Action T → Except Fault (Sys T)
  | .consumer =>
    match s.cons with
    | .check => if has_front s.mem then .ok { s with cons := .callFront } else .ok s
    | .callFront =>
      match front s.mem with
      | .error e => .error e
      | .ok x => .ok { s with cons := .inPop .loadHead, popped := s.popped ++ [x] }
    | .inPop pc =>
      match popStep s.mem pc with
      | .error e => .error e
      | .ok (m, pc') =>
        .ok { s with mem := m, cons := if pc' = .done then .check else .inPop pc' }
  | .call p a x =>
    if s.prod p = .done ∧ (s.mem.heap a).isNone then
      .ok { s with
        mem := { s.mem with
          heap := Function.update s.mem.heap a (some { item := x, next := none }) },
        prod := Function.update s.prod p (.exchange (some a)) }
    else .ok s
  | .producer p =>
    match pushStep s.mem (s.prod p) with
    | .error e => .error e
    | .ok (m, pc') =>
      .ok { s with
        mem := m,
        prod := Function.update s.prod p pc',
        pushed := s.pushed ++
          (match s.prod p with
           | .exchange node => itemAt s.mem.heap node
           | _ => []) }

/-- Run a whole schedule. -/
def sysRun {T : Type} : List (Action T) → Sys T → Except Fault (Sys T)
  | [], s => .ok s
  | act :: acts, s =>
    match sysStep s act with
    | .error e => .error e
    | .ok s' => sysRun acts s'

/-- The system right after the constructor, in a program whose free store is `h`. -/
def Sys.init {T : Type} (h : Heap T) : Sys T :=
  { mem := new h, cons := .check, prod := fun _ => .done, pushed := [], popped := [] }

/-- No push is in flight, the consumer is between two rounds and finds the queue empty. -/
def Sys.Quiescent {T : Type} (s : Sys T) : Prop :=
  (∀ p, s.prod p = .done) ∧ s.cons = .check ∧ has_front s.mem = false

/-- The node a call of `push(Node*)` is about. -/
def PushPc.node : PushPc → Ptr
  | .exchange n => n
  | .link n _ => n
  | .done => none

/-- Some push has exchanged `tail` away from null and not yet stored `head`. -/
def FirstPending {T : Type} (s : Sys T) : Prop :=
  ∃ p b, s.prod p = .link (some b) none

/-- The value `head` holds while no node is installed there: null, or the popped node
between the two compare-and-swaps of `pop`. -/
def ConsPc.stale : ConsPc → Ptr
  | .inPop (.casHead p) => p
  | _ => none

/-- The node `pop` has unlinked and not yet destroyed. -/
def ConsPc.detached : ConsPc → Ptr
  | .inPop (.casHead p) => p
  | .inPop (.del p) => p
  | _ => none

/-- The consumer has read the front item and not yet unlinked its node. -/
def FrontRead {T : Type} (s : Sys T) (Q : List (Nat × T)) : Prop :=
  s.mem.head ≠ none ∧
    ∃ pp x, s.popped = pp ++ [x] ∧ Q.head?.map Prod.snd = some x ∧ pp ++ Q.map Prod.snd = s.pushed

/-- What holds at each control point of the consumer. -/
def ConsInv {T : Type} (s : Sys T) (Q : List (Nat × T)) : Prop :=
  match s.cons with
  | .check => s.popped ++ Q.map Prod.snd = s.pushed
  | .callFront => s.popped ++ Q.map Prod.snd = s.pushed ∧ s.mem.head ≠ none
  | .inPop .loadHead => FrontRead s Q
  | .inPop (.casTail p) => p = s.mem.head ∧ FrontRead s Q
  | .inPop (.readNext p) => p = s.mem.head ∧ FrontRead s Q ∧ 2 ≤ Q.length
  | .inPop (.storeHead p n) =>
    p = s.mem.head ∧ FrontRead s Q ∧
      ∃ a x, Q[0]? = some (a, x) ∧ Q[1]?.map Prod.fst = some n ∧
        s.mem.heap a = some { item := x, next := some n }
  | .inPop (.casHead p) => (∃ c, p = some c) ∧ s.popped ++ Q.map Prod.snd = s.pushed
  | .inPop (.del p) => (∃ c, p = some c) ∧ s.popped ++ Q.map Prod.snd = s.pushed
  | .inPop .done => False

/-- The invariant of the system: `Q` lists the nodes (address and item) whose push has
exchanged `tail` and which `pop` has not unlinked, in the order of the exchanges. -/
structure Inv {T : Type} (s : Sys T) (Q : List (Nat × T)) : Prop where
  /-- the nodes of the queue are pairwise distinct -/
  nodup : (Q.map Prod.fst).Nodup
  /-- every node of the queue is alive, holds its item, and points to its successor unless
  the push of the successor has not stored the link yet -/
  chain : ∀ i a x, Q[i]? = some (a, x) →
    ∃ nx, s.mem.heap a = some { item := x, next := nx } ∧
      (nx = Q[i + 1]?.map Prod.fst ∨
        (nx = none ∧ ∃ p b, Q[i + 1]?.map Prod.fst = some b ∧
          s.prod p = .link (some b) (some a)))
  /-- `tail` is the last node -/
  tail : s.mem.tail = Q.getLast?.map Prod.fst
  /-- `head` is stale while the queue is empty or its first push has not stored `head` -/
  head_stale : Q = [] ∨ FirstPending s → s.mem.head = s.cons.stale
  /-- otherwise `head` is the first node -/
  head_first : Q ≠ [] → ¬ FirstPending s → s.mem.head = Q.head?.map Prod.fst
  /-- a push before its exchange owns a fresh unlinked node -/
  exch : ∀ p nd, s.prod p = .exchange nd →
    ∃ a x, nd = some a ∧ s.mem.heap a = some { item := x, next := none } ∧
      a ∉ Q.map Prod.fst ∧ s.cons.detached ≠ some a
  /-- a push after its exchange has its node in the queue, right behind the old tail -/
  link : ∀ p nd old, s.prod p = .link nd old →
    ∃ b x i, nd = some b ∧ Q[i]? = some (b, x) ∧
      ((i = 0 ∧ old = none) ∨
        ∃ j a y, i = j + 1 ∧ Q[j]? = some (a, y) ∧ old = some a ∧
          s.mem.heap a = some { item := y, next := none })
  /-- different calls push different nodes -/
  inj : ∀ p p' a, (s.prod p).node = some a → (s.prod p').node = some a → p = p'
  /-- the unlinked node is alive and not in the queue -/
  detached : ∀ c, s.cons.detached = some c → s.mem.heap c ≠ none ∧ c ∉ Q.map Prod.fst
  /-- the control point of the consumer and the histories -/
  cons : ConsInv s Q

/-! ## Concrete states used as examples -/

/-- The free store in which no node is alive. -/
def emptyHeap : Heap Nat := fun _ => none

/-- The queue after `push(7)` on a fresh queue, the node created at address `0`. -/
def oneItem : State Nat :=
  { heap := Function.update emptyHeap 0 (some { item := 7, next := none }),
    head := some 0, tail := some 0 }

/-- The queue after `n` calls `push(0)` on a fresh queue, the nodes created at the
addresses `0, 1, ..., n - 1` in this order. -/
def pushedZeros (n : Nat) : State Nat :=
  { heap := fun a =>
      if a < n then some { item := 0, next := if a + 1 < n then some (a + 1) else none }
      else none,
    head := if n = 0 then none else some 0,
    tail := if n = 0 then none else some (n - 1) }

/-- The history of `n` calls `push(0)`, the nodes created at the addresses `0, ..., n - 1`. -/
def zerosHistory (n : Nat) : List (Op Nat) :=
  (List.range n).map (fun a => Op.push a 0)

/-- The queue after `push(7)` and `push(9)` on a fresh queue, the nodes created at the
addresses `0` and `1`. -/
def twoItems : State Nat :=
  { heap := Function.update
      (Function.update oneItem.heap 1 (some { item := 9, next := none })) 0
      (some { item := 7, next := some 1 }),
    head := some 0, tail := some 1 }

/-! ## The race on the last element -/

/-- The configurations one `pop()` and one `push(Node*)` of node `A` can be in when they
start together on a queue whose only node is `X` (holding `x`), in the free store `h`. -/
inductive RaceReach {T : Type} (h : Heap T) (X A : Nat) (x : T) : Race T → Prop where
  | a1 : RaceReach h X A x ⟨⟨h, some X, some X⟩, .loadHead, .exchange (some A)⟩
  | a2 : RaceReach h X A x ⟨⟨h, some X, some X⟩, .casTail (some X), .exchange (some A)⟩
  | b1 : RaceReach h X A x ⟨⟨h, some X, some A⟩, .loadHead, .link (some A) (some X)⟩
  | b2 : RaceReach h X A x ⟨⟨h, some X, some A⟩, .casTail (some X), .link (some A) (some X)⟩
  | b3 : RaceReach h X A x ⟨⟨h, some X, some A⟩, .readNext (some X), .link (some A) (some X)⟩
  | d1 : RaceReach h X A x
      ⟨⟨Function.update h X (some ⟨x, some A⟩), some X, some A⟩, .loadHead, .done⟩
  | d2 : RaceReach h X A x
      ⟨⟨Function.update h X (some ⟨x, some A⟩), some X, some A⟩, .casTail (some X), .done⟩
  | d3 : RaceReach h X A x
      ⟨⟨Function.update h X (some ⟨x, some A⟩), some X, some A⟩, .readNext (some X), .done⟩
  | d4 : RaceReach h X A x
      ⟨⟨Function.update h X (some ⟨x, some A⟩), some X, some A⟩, .storeHead (some X) A, .done⟩
  | d5 : RaceReach h X A x
      ⟨⟨Function.update h X (some ⟨x, some A⟩), some A, some A⟩, .del (some X), .done⟩
  | d6 : RaceReach h X A x
      ⟨⟨Function.update (Function.update h X (some ⟨x, some A⟩)) X none, some A, some A⟩,
        .done, .done⟩
  | c1 : RaceReach h X A x ⟨⟨h, some X, none⟩, .casHead (some X), .exchange (some A)⟩
  | c2 : RaceReach h X A x ⟨⟨h, none, none⟩, .del (some X), .exchange (some A)⟩
  | c3 : RaceReach h X A x ⟨⟨Function.update h X none, none, none⟩, .done, .exchange (some A)⟩
  | e1 : RaceReach h X A x ⟨⟨h, some X, some A⟩, .casHead (some X), .link (some A) none⟩
  | e2 : RaceReach h X A x ⟨⟨h, none, some A⟩, .del (some X), .link (some A) none⟩
  | e3 : RaceReach h X A x ⟨⟨Function.update h X none, none, some A⟩, .done, .link (some A) none⟩
  | f1 : RaceReach h X A x ⟨⟨h, some A, some A⟩, .casHead (some X), .done⟩
  | f2 : RaceReach h X A x ⟨⟨h, some A, some A⟩, .del (some X), .done⟩
  | f3 : RaceReach h X A x ⟨⟨Function.update h X none, some A, some A⟩, .done, .done⟩

/-- A free store with two nodes: `10` at address `0` and `20` at address `1`, both unlinked. -/
def twoNodes : Heap Nat :=
  Function.update (Function.update emptyHeap 0 (some { item := 10, next := none })) 1
    (some { item := 20, next := none })

/-! ## Sequential operations on a well-formed chain -/

section Sequential

variable {T : Type}

theorem pending_push (tr : List (Op T)) (a : Nat) (x : T) :
    pending (tr ++ [.push a x]) = pending tr ++ [x] := by
  simp [pending, List.foldl_append]

theorem pending_pop (tr : List (Op T)) :
    pending (tr ++ [.pop]) = (pending tr).tail := by
  simp [pending, List.foldl_append]

theorem pushes_push (tr : List (Op T)) (a : Nat) (x : T) :
    pushes (tr ++ [.push a x]) = pushes tr + 1 := by
  simp [pushes, List.filter_append]

theorem pushes_pop (tr : List (Op T)) : pushes (tr ++ [.pop]) = pushes tr := by
  simp [pushes, List.filter_append]

theorem pops_push (tr : List (Op T)) (a : Nat) (x : T) :
    pops (tr ++ [.push a x]) = pops tr := by
  simp [pops, List.filter_append]

theorem pops_pop (tr : List (Op T)) : pops (tr ++ [.pop]) = pops tr + 1 := by
  simp [pops, List.filter_append]

theorem Linked.of_agree {h h' : Heap T} :
    ∀ {chain : List (Nat × T)}, (∀ a ∈ chain.map Prod.fst, h' a = h a) →
      Linked h chain → Linked h' chain
  | [], _, _ => trivial
  | (a, x) :: rest, hf, hl => by
    refine ⟨?_, Linked.of_agree (fun b hb => hf b (by simp at hb ⊢; exact Or.inr hb)) hl.2⟩
    rw [hf a (by simp)]
    exact hl.1

theorem Linked.live {h : Heap T} :
    ∀ {chain : List (Nat × T)}, Linked h chain → ∀ a ∈ chain.map Prod.fst, h a ≠ none
  | [], _, a, ha => by simp at ha
  | (b, y) :: rest, hl, a, ha => by
    simp only [List.map_cons, List.mem_cons] at ha
    rcases ha with rfl | ha
    · rw [hl.1]; simp
    · exact Linked.live hl.2 a ha

/-- Linking a new last node behind the last node of a chain. -/
theorem Linked.snoc {h : Heap T} (o : Nat) (y : T) (a : Nat) (x : T) :
    ∀ (chain : List (Nat × T)), ((chain ++ [(o, y)]).map Prod.fst).Nodup →
      a ∉ (chain ++ [(o, y)]).map Prod.fst →
      Linked h (chain ++ [(o, y)]) → h a = some { item := x, next := none } →
      Linked (Function.update h o (some { item := y, next := some a }))
        (chain ++ [(o, y), (a, x)])
  | [], _, ha, hl, hx => by
    have hao : a ≠ o := by simpa using ha
    simp only [List.nil_append, Linked, List.head?_cons, Option.map_some', Function.update_same,
      List.head?_nil, Option.map_none', and_true, true_and]
    rw [Function.update_noteq hao]
    exact hx
  | (b, z) :: rest, hnd, ha, hl, hx => by
    have hbo : b ≠ o := by
      intro hbo
      simp [hbo] at hnd
    have hnd' : ((rest ++ [(o, y)]).map Prod.fst).Nodup := by
      simp only [List.cons_append, List.map_cons, List.nodup_cons] at hnd
      exact hnd.2
    have ha' : a ∉ (rest ++ [(o, y)]).map Prod.fst := by
      intro hmem
      apply ha
      simp only [List.cons_append, List.map_cons, List.mem_cons]
      exact Or.inr hmem
    refine ⟨?_, Linked.snoc o y a x rest hnd' ha' hl.2 hx⟩
    rw [Function.update_noteq hbo, hl.1]
    cases rest <;> simp

theorem getLast?_map_snoc (chain : List (Nat × T)) (o : Nat) (y : T) :
    (chain ++ [(o, y)]).getLast?.map Prod.fst = some o := by
  simp

theorem head?_map_snoc (chain : List (Nat × T)) (c : Nat × T) :
    (chain ++ [c]).head?.map Prod.fst = (chain.head?.map Prod.fst).or (some c.1) := by
  cases chain <;> simp

theorem push_holds_snoc {q : State T} {init : List (Nat × T)} {o : Nat} {y : T} {a : Nat} {x : T}
    (hnd : ((init ++ [(o, y)]).map Prod.fst).Nodup) (hl : Linked q.heap (init ++ [(o, y)]))
    (hhead : q.head = (init ++ [(o, y)]).head?.map Prod.fst)
    (htail : q.tail = (init ++ [(o, y)]).getLast?.map Prod.fst)
    (hfresh : a ∉ (init ++ [(o, y)]).map Prod.fst) (ha : q.heap a = none) :
    ∃ q', push q x (some a) = .ok (.returned, q') ∧ Holds q' ((init ++ [(o, y)]) ++ [(a, x)]) ∧
      (∀ b, b ∉ (init ++ [(o, y)]).map Prod.fst → b ≠ a → q'.heap b = q.heap b) ∧
      q'.head = (q.head.or (some a)) := by
  have hto : q.tail = some o := by rw [htail]; simp
  have hlive : ∃ n, q.heap o = some n := by
    have := Linked.live hl o (by simp)
    exact Option.ne_none_iff_exists'.mp this
  obtain ⟨n, hn⟩ := hlive
  have hao : a ≠ o := by
    intro hao
    rw [hao] at ha
    simp [ha] at hn
  have hl' : Linked (Function.update q.heap a (some { item := x, next := none }))
      (init ++ [(o, y)]) :=
    Linked.of_agree (fun b hb => Function.update_noteq (fun (hba : b = a) => hfresh (hba ▸ hb)) _ _) hl
  have hitem : n.item = y := by
    have hmem : ∀ (l : List (Nat × T)), Linked q.heap (l ++ [(o, y)]) →
        q.heap o = some n → ((l ++ [(o, y)]).map Prod.fst).Nodup → n.item = y := by
      intro l
      induction l with
      | nil =>
        intro h1 h2 _
        have := h1.1
        rw [h2] at this
        simp only [Option.some.injEq] at this
        rw [this]
      | cons c l ih =>
        intro h1 h2 h3
        simp only [List.cons_append, List.map_cons, List.nodup_cons] at h3
        exact ih h1.2 h2 h3.2
    exact hmem init hl hn hnd
  refine ⟨{ heap := Function.update
              (Function.update q.heap a (some { item := x, next := none })) o
              (some { item := y, next := some a }),
            head := q.head, tail := some a }, ?_, ⟨?_, ?_, ?_, ?_⟩, ?_, ?_⟩
  · simp [push, pushNode, hto, set_next, Function.update_noteq hao.symm, hn, hitem]
  · rw [List.map_append, List.nodup_append]
    refine ⟨hnd, by simp, ?_⟩
    intro b hb hb'
    simp only [List.map_cons, List.map_nil, List.mem_singleton] at hb'
    exact hfresh (hb' ▸ hb)
  · have := Linked.snoc (h := Function.update q.heap a (some { item := x, next := none }))
      o y a x init hnd hfresh hl' (by simp)
    simpa using this
  · rw [hhead]
    cases init <;> simp
  · simp
  · intro b hb hba
    have hbo : b ≠ o := by
      intro hbo
      apply hb
      simp [hbo]
    simp [Function.update_noteq hbo, Function.update_noteq hba]
  · rw [hhead]
    cases init <;> simp

/-- The state a completed `push(x)` leaves behind, its node created at address `a`. -/
theorem push_holds {q : State T} {chain : List (Nat × T)} (hq : Holds q chain)
    (a : Nat) (x : T) (ha : q.heap a = none) :
    ∃ q', push q x (some a) = .ok (.returned, q') ∧ Holds q' (chain ++ [(a, x)]) ∧
      (∀ b, b ∉ chain.map Prod.fst → b ≠ a → q'.heap b = q.heap b) ∧
      q'.head = (q.head.or (some a)) := by
  obtain ⟨hnd, hl, hhead, htail⟩ := hq
  have hfresh : a ∉ chain.map Prod.fst := fun hmem => Linked.live hl a hmem ha
  rcases List.eq_nil_or_concat chain with rfl | ⟨init, ⟨o, y⟩, hc⟩
  swap
  · rw [List.concat_eq_append] at hc
    subst hc
    exact push_holds_snoc hnd hl hhead htail hfresh ha
  · simp only [List.head?_nil, Option.map_none', List.getLast?_nil] at hhead htail
    refine ⟨{ heap := Function.update q.heap a (some { item := x, next := none }),
              head := some a, tail := some a }, ?_, ⟨?_, ?_, ?_, ?_⟩, ?_, ?_⟩
    · simp [push, pushNode, htail]
    · simp
    · simp [Linked]
    · simp
    · simp
    · intro b _ hb
      simp [Function.update_noteq hb]
    · simp [hhead]

/-- The state a `pop()` on a non-empty chain leaves behind: it returns for every bound on the
wait loop (the loop body is never entered), destroys the first node and nothing else. -/
theorem pop_holds {q : State T} {a : Nat} {x : T} {rest : List (Nat × T)}
    (hq : Holds q ((a, x) :: rest)) (fuel : Nat) :
    ∃ q', pop fuel q = .ok q' ∧ Holds q' rest ∧
      q'.heap = Function.update q.heap a none ∧ q.heap a ≠ none := by
  obtain ⟨hnd, hl, hhead, htail⟩ := hq
  simp only [List.head?_cons, Option.map_some'] at hhead
  have hlive : q.heap a = some { item := x, next := rest.head?.map Prod.fst } := hl.1
  have hrest : Linked (Function.update q.heap a none) rest := by
    refine Linked.of_agree (fun b hb => Function.update_noteq ?_ _ _) hl.2
    rintro rfl
    simp only [List.map_cons, List.nodup_cons] at hnd
    exact hnd.1 hb
  have hnd' : (rest.map Prod.fst).Nodup := by
    simp only [List.map_cons, List.nodup_cons] at hnd
    exact hnd.2
  cases rest with
  | nil =>
    simp only [List.getLast?_singleton, Option.map_some'] at htail
    refine ⟨{ heap := Function.update q.heap a none, head := none, tail := none }, ?_,
      ⟨hnd', hrest, by simp, by simp⟩, rfl, by simp [hlive]⟩
    simp [pop, hhead, htail, delete, hlive]
  | cons c r =>
    obtain ⟨b, y⟩ := c
    have htl : q.tail ≠ some a := by
      rw [htail, List.getLast?_cons_cons]
      intro heq
      have hmem : a ∈ ((b, y) :: r).map Prod.fst := by
        cases hgl : ((b, y) :: r).getLast? with
        | none => simp [hgl] at heq
        | some z =>
          rw [hgl] at heq
          simp only [Option.map_some', Option.some.injEq] at heq
          have := List.mem_of_getLast?_eq_some hgl
          exact List.mem_map.mpr ⟨z, this, heq⟩
      simp only [List.map_cons, List.nodup_cons] at hnd
      exact hnd.1 hmem
    have hwait : waitNext q.heap (some a) fuel = .ok b := by
      cases fuel <;> simp [waitNext, get_next, deref, hlive]
    refine ⟨{ heap := Function.update q.heap a none, head := some b, tail := q.tail }, ?_,
      ⟨hnd', hrest, by simp, ?_⟩, rfl, by simp [hlive]⟩
    · simp [pop, hhead, htl, hwait, delete, hlive]
    · rw [htail, List.getLast?_cons_cons]

theorem front_holds {q : State T} {a : Nat} {x : T} {rest : List (Nat × T)}
    (hq : Holds q ((a, x) :: rest)) : front q = .ok x := by
  obtain ⟨_, hl, hhead, _⟩ := hq
  simp only [List.head?_cons, Option.map_some'] at hhead
  simp [front, deref, hhead, hl.1]

theorem has_front_holds {q : State T} {chain : List (Nat × T)} (hq : Holds q chain) :
    has_front q = !chain.isEmpty := by
  obtain ⟨_, _, hhead, _⟩ := hq
  cases chain <;> simp [has_front, hhead]

theorem sizeLoop_linked {h : Heap T} :
    ∀ (chain : List (Nat × T)) (fuel count : Nat), Linked h chain → chain.length ≤ fuel →
      sizeLoop h fuel (chain.head?.map Prod.fst) count
        = .ok ((count + chain.length) % UINT_MOD) ∨
      sizeLoop h fuel (chain.head?.map Prod.fst) count = .ok count ∧ chain = []
  | [], fuel, count, _, _ => by
    right
    cases fuel <;> simp [sizeLoop]
  | (a, x) :: rest, 0, count, _, hf => by simp at hf
  | (a, x) :: rest, fuel + 1, count, hl, hf => by
    left
    have hf' : rest.length ≤ fuel := by simpa using hf
    simp only [List.head?_cons, Option.map_some', sizeLoop, get_next, deref, hl.1]
    rcases sizeLoop_linked rest fuel ((count + 1) % UINT_MOD) hl.2 hf' with h1 | ⟨h1, rfl⟩
    · rw [h1]
      simp only [List.length_cons, Except.ok.injEq]
      rw [Nat.mod_add_mod]
      congr 1
      omega
    · simp only [List.head?_nil, Option.map_none'] at h1 ⊢
      rw [h1]
      simp

theorem size_holds {q : State T} {chain : List (Nat × T)} (hq : Holds q chain)
    (fuel : Nat) (hf : chain.length ≤ fuel) :
    size fuel q = .ok (chain.length % UINT_MOD) := by
  obtain ⟨_, hl, hhead, _⟩ := hq
  unfold size
  rw [hhead]
  rcases sizeLoop_linked chain fuel 0 hl hf with h1 | ⟨h1, rfl⟩
  · simpa using h1
  · rw [h1]; simp [UINT_MOD]

/-- Every state reached by completed pushes and pops holds a well-formed chain whose items
are the pending items of the history. -/
theorem Reach.holds {tr : List (Op T)} {q : State T} (hr : Reach tr q) :
    ∃ chain : List (Nat × T), Holds q chain ∧ chain.map Prod.snd = pending tr ∧
      chain.length + pops tr = pushes tr := by
  induction hr with
  | ctor h =>
    exact ⟨[], ⟨by simp, trivial, rfl, rfl⟩, by simp [pending], by simp [pops, pushes]⟩
  | @push tr q a x q' _ ha hp ih =>
    obtain ⟨chain, hq, hitems, hlen⟩ := ih
    obtain ⟨q'', hp', hq', _, _⟩ := push_holds hq a x ha
    rw [hp] at hp'
    simp only [Except.ok.injEq, Prod.mk.injEq, true_and] at hp'
    subst hp'
    refine ⟨chain ++ [(a, x)], hq', ?_, ?_⟩
    · rw [pending_push, List.map_append, hitems]; simp
    · rw [pushes_push, pops_push, List.length_append]; simp; omega
  | @pop tr q fuel q' _ hf hp ih =>
    obtain ⟨chain, hq, hitems, hlen⟩ := ih
    have hne := has_front_holds hq
    rw [hf] at hne
    cases chain with
    | nil => simp at hne
    | cons c rest =>
      obtain ⟨a, x⟩ := c
      obtain ⟨q'', hp', hq', _, _⟩ := pop_holds hq fuel
      rw [hp] at hp'
      simp only [Except.ok.injEq] at hp'
      subst hp'
      refine ⟨rest, hq', ?_, ?_⟩
      · rw [pending_pop, ← hitems]; simp
      · rw [pushes_pop, pops_pop]; simp at hlen; omega

theorem walk_linked {h : Heap T} :
    ∀ (chain : List (Nat × T)) (fuel : Nat), Linked h chain → chain.length ≤ fuel →
      walk h fuel (chain.head?.map Prod.fst) = .ok chain
  | [], fuel, _, _ => by cases fuel <;> simp [walk]
  | (a, x) :: rest, 0, _, hf => by simp at hf
  | (a, x) :: rest, fuel + 1, hl, hf => by
    have hf' : rest.length ≤ fuel := by simpa using hf
    simp only [List.head?_cons, Option.map_some', walk, deref, hl.1]
    rw [walk_linked rest fuel hl.2 hf']

theorem Linked.last_next {h : Heap T} :
    ∀ (chain : List (Nat × T)) (c : Nat × T), Linked h chain → chain.getLast? = some c →
      get_next h (some c.1) = .ok none
  | [], c, _, hc => by simp at hc
  | [(a, x)], c, hl, hc => by
    simp only [List.getLast?_singleton, Option.some.injEq] at hc
    subst hc
    simp [get_next, deref, hl.1]
  | (a, x) :: b :: rest, c, hl, hc => by
    rw [List.getLast?_cons_cons] at hc
    exact Linked.last_next (b :: rest) c hl.2 hc

theorem pushAll_holds :
    ∀ (avs : List (Nat × T)) (q : State T) (chain : List (Nat × T)), Holds q chain →
      (avs.map Prod.fst).Nodup → (∀ a ∈ avs.map Prod.fst, q.heap a = none) →
      ∃ q', pushAll q avs = .ok q' ∧ Holds q' (chain ++ avs)
  | [], q, chain, hq, _, _ => ⟨q, rfl, by simpa using hq⟩
  | (a, x) :: rest, q, chain, hq, hnd, hfresh => by
    have ha : q.heap a = none := hfresh a (by simp)
    obtain ⟨q1, hp, hq1, hframe, _⟩ := push_holds hq a x ha
    simp only [List.map_cons, List.nodup_cons] at hnd
    have hfresh1 : ∀ b ∈ rest.map Prod.fst, q1.heap b = none := by
      intro b hb
      have hbq : q.heap b = none := hfresh b (by simp only [List.map_cons, List.mem_cons]; exact Or.inr hb)
      rw [hframe b (fun hmem => Linked.live hq.2.1 b hmem hbq) (fun hba => hnd.1 (hba ▸ hb))]
      exact hbq
    obtain ⟨q2, hp2, hq2⟩ := pushAll_holds rest q1 (chain ++ [(a, x)]) hq1 hnd.2 hfresh1
    refine ⟨q2, ?_, by simpa using hq2⟩
    simp only [pushAll, hp]
    exact hp2

theorem rounds_holds (popFuel : Nat) :
    ∀ (chain : List (Nat × T)) (q : State T), Holds q chain →
      ∃ q', rounds popFuel chain.length q
          = .ok (chain.map (fun c => (true, c.2)), q') ∧ Holds q' []
  | [], q, hq => ⟨q, rfl, hq⟩
  | (a, x) :: rest, q, hq => by
    obtain ⟨q1, hp, hq1, _, _⟩ := pop_holds hq popFuel
    obtain ⟨q2, hr, hq2⟩ := rounds_holds popFuel rest q1 hq1
    refine ⟨q2, ?_, hq2⟩
    simp only [List.length_cons, rounds, front_holds hq, hp, hr, has_front_holds hq]
    simp

theorem sizeLoop_short {h : Heap T} :
    ∀ (chain : List (Nat × T)) (fuel count : Nat), Linked h chain → fuel < chain.length →
      sizeLoop h fuel (chain.head?.map Prod.fst) count = .error .outOfFuel
  | [], fuel, count, _, hf => by simp at hf
  | (a, x) :: rest, 0, count, _, _ => by simp [sizeLoop]
  | (a, x) :: rest, fuel + 1, count, hl, hf => by
    have hf' : fuel < rest.length := by simpa using hf
    simp only [List.head?_cons, Option.map_some', sizeLoop, get_next, deref, hl.1]
    exact sizeLoop_short rest fuel _ hl.2 hf'

theorem clear_holds (popFuel : Nat) :
    ∀ (chain : List (Nat × T)) (q : State T), Holds q chain →
      ∃ q', (∀ k, clear popFuel (chain.length + k) q = .ok q') ∧
        (∀ k, k < chain.length → clear popFuel k q = .error .outOfFuel) ∧ Holds q' [] ∧
        (∀ a ∈ chain.map Prod.fst, q.heap a ≠ none ∧ q'.heap a = none) ∧
        (∀ a, a ∉ chain.map Prod.fst → q'.heap a = q.heap a)
  | [], q, hq => by
    have hf : has_front q = false := by simpa using has_front_holds hq
    refine ⟨q, ?_, by simp, hq, by simp, by simp⟩
    intro k
    cases k <;> simp [clear, hf]
  | (a, x) :: rest, q, hq => by
    have hf : has_front q = true := by simpa using has_front_holds hq
    obtain ⟨q1, hp, hq1, hheap, hlive⟩ := pop_holds hq popFuel
    obtain ⟨q2, hc, hshort, hq2, hdead, hframe⟩ := clear_holds popFuel rest q1 hq1
    have hnd : a ∉ rest.map Prod.fst := by
      have := hq.1
      simp only [List.map_cons, List.nodup_cons] at this
      exact this.1
    refine ⟨q2, ?_, ?_, hq2, ?_, ?_⟩
    · intro k
      have : (((a, x) :: rest).length + k) = (rest.length + k) + 1 := by simp; omega
      rw [this]
      simp only [clear, hf, if_true, hp]
      exact hc k
    · intro k hk
      cases k with
      | zero => simp [clear, hf]
      | succ k =>
        simp only [clear, hf, if_true, hp]
        exact hshort k (by simpa using hk)
    · intro b hb
      simp only [List.map_cons, List.mem_cons] at hb
      rcases hb with rfl | hb
      · refine ⟨hlive, ?_⟩
        rw [hframe b hnd, hheap]
        simp
      · have hba : b ≠ a := fun hba => hnd (hba ▸ hb)
        have := hdead b hb
        rw [hheap, Function.update_noteq hba] at this
        exact this
    · intro b hb
      simp only [List.map_cons, List.mem_cons, not_or] at hb
      rw [hframe b hb.2, hheap, Function.update_noteq hb.1]

theorem push_pushedZeros (n : Nat) :
    push (pushedZeros n) 0 (some n) = .ok (.returned, pushedZeros (n + 1)) := by
  cases n with
  | zero =>
    simp only [push, pushNode, pushedZeros]
    simp only [Nat.not_lt_zero, if_false, if_true, Except.ok.injEq, Prod.mk.injEq, true_and,
      State.mk.injEq, Nat.add_one_ne_zero, Nat.zero_add, Nat.sub_self, and_true]
    funext a
    by_cases ha : a = 0
    · subst ha; simp
    · rw [Function.update_noteq ha]
      have : ¬ a < 1 := by omega
      simp [this]
  | succ m =>
    simp only [push, pushNode, pushedZeros, Nat.add_one_ne_zero, if_false, Nat.add_sub_cancel,
      set_next]
    have h1 : (m : Nat) ≠ m + 1 := by omega
    simp only [Function.update_noteq h1, Nat.lt_succ_self, if_true, lt_irrefl, if_false,
      Except.ok.injEq, Prod.mk.injEq, true_and, State.mk.injEq, and_true]
    funext a
    by_cases ha : a = m
    · subst ha
      have h6 : a < a + 1 + 1 := by omega
      simp [h6]
    · rw [Function.update_noteq ha]
      by_cases hb : a = m + 1
      · subst hb
        simp
      · rw [Function.update_noteq hb]
        by_cases hlt : a < m
        · have h2 : a < m + 1 := by omega
          have h3 : a < m + 1 + 1 := by omega
          have h4 : a + 1 < m + 1 := by omega
          have h5 : a + 1 < m + 1 + 1 := by omega
          simp [h2, h3, h4, h5]
        · have h2 : ¬ a < m + 1 := by omega
          have h3 : ¬ a < m + 1 + 1 := by omega
          simp [h2, h3]

theorem reach_pushedZeros : ∀ n : Nat, Reach (zerosHistory n) (pushedZeros n)
  | 0 => by
    have h0 : pushedZeros 0 = new (fun _ => none) := by
      simp [pushedZeros, new]
    rw [h0]
    exact Reach.ctor _
  | n + 1 => by
    have hh : zerosHistory (n + 1) = zerosHistory n ++ [Op.push n 0] := by
      simp [zerosHistory, List.range_succ]
    rw [hh]
    exact Reach.push n 0 _ (reach_pushedZeros n) (by simp [pushedZeros]) (push_pushedZeros n)

theorem pushes_zerosHistory (n : Nat) : pushes (zerosHistory n) = n := by
  induction n with
  | zero => simp [zerosHistory, pushes]
  | succ n ih =>
    have hh : zerosHistory (n + 1) = zerosHistory n ++ [Op.push n 0] := by
      simp [zerosHistory, List.range_succ]
    rw [hh, pushes_push, ih]

theorem pops_zerosHistory (n : Nat) : pops (zerosHistory n) = 0 := by
  induction n with
  | zero => simp [zerosHistory, pops]
  | succ n ih =>
    have hh : zerosHistory (n + 1) = zerosHistory n ++ [Op.push n 0] := by
      simp [zerosHistory, List.range_succ]
    rw [hh, pops_push, ih]

theorem reach_oneItem : Reach [Op.push 0 7] oneItem :=
  @Reach.push Nat [] (new emptyHeap) 0 7 oneItem (Reach.ctor emptyHeap) rfl rfl

theorem reach_twoItems : Reach [Op.push 0 7, Op.push 1 9] twoItems :=
  @Reach.push Nat [Op.push 0 7] oneItem 1 9 twoItems reach_oneItem rfl rfl

end Sequential

/-! ## The whole operations are the uninterrupted runs of the atomic steps -/

section Uninterrupted

variable {T : Type}

theorem waitNext_ok {h : Heap T} {popped : Ptr} {n : Nat} :
    ∀ {fuel : Nat}, waitNext h popped fuel = .ok n → get_next h popped = .ok (some n)
  | 0, hw => by
    unfold waitNext at hw
    split at hw <;> simp_all
  | fuel + 1, hw => by
    unfold waitNext at hw
    split at hw
    · simp at hw
    · simp_all
    · exact waitNext_ok hw

/-- A call `pop()` that returns is the uninterrupted run of its atomic steps: four steps when
the compare-and-swap of `tail` succeeds, five when it fails. -/
theorem pop_is_popRun (fuel : Nat) (q q' : State T) (hp : pop fuel q = .ok q') :
    ∃ n, n ≤ 5 ∧ popRun n q .loadHead = .ok (q', .done) := by
  unfold pop at hp
  by_cases ht : q.tail = q.head
  · refine ⟨4, by omega, ?_⟩
    simp only [ht, if_true] at hp
    cases hd : delete q.heap q.head with
    | error e => simp [hd] at hp
    | ok h =>
      simp only [hd, Except.ok.injEq] at hp
      subst hp
      simp [popRun, popStep, ht, hd]
  · refine ⟨5, by omega, ?_⟩
    simp only [ht, if_false] at hp
    cases hw : waitNext q.heap q.head fuel with
    | error e => simp [hw] at hp
    | ok n =>
      simp only [hw] at hp
      cases hd : delete q.heap q.head with
      | error e => simp [hd] at hp
      | ok h =>
        simp only [hd, Except.ok.injEq] at hp
        subst hp
        simp [popRun, popStep, ht, waitNext_ok hw, hd]

/-- A call `push(Node*)` is the uninterrupted run of its two atomic steps. -/
theorem pushNode_is_pushRun (q : State T) (node : Ptr) :
    pushRun 2 q (.exchange node) = (pushNode q node).map (fun q' => (q', PushPc.done)) := by
  unfold pushNode
  cases ht : q.tail with
  | none => simp [pushRun, pushStep, ht, Except.map]
  | some o =>
    simp only [pushRun, pushStep, ht]
    cases hs : set_next q.heap (some o) node <;> simp [Except.map]

end Uninterrupted

/-! ## The sequential contract -/

section Contract

variable {T : Type}

/-- C1: FIFO order in sequential use.  Pushing the items of `avs` in order onto a freshly
constructed queue (the allocator handing out pairwise distinct free addresses) returns a
queue on which `avs.length` rounds of `front()` followed by `pop()` run without fault,
`has_front()` is true before each round, the values returned by `front()` are the pushed
items in the order pushed, and `has_front()` is false after the last round. -/
theorem C1_fifo_sequential (h : Heap T) (avs : List (Nat × T))
    (hnd : (avs.map Prod.fst).Nodup) (hfresh : ∀ a ∈ avs.map Prod.fst, h a = none)
    (popFuel : Nat) :
    ∃ q q', pushAll (new h) avs = .ok q ∧
      rounds popFuel avs.length q = .ok (avs.map (fun c => (true, c.2)), q') ∧
      has_front q' = false := by
  have h0 : Holds (new h) ([] : List (Nat × T)) := ⟨by simp, trivial, rfl, rfl⟩
  obtain ⟨q, hp, hq⟩ := pushAll_holds avs (new h) [] h0 hnd hfresh
  rw [List.nil_append] at hq
  obtain ⟨q', hr, hq'⟩ := rounds_holds popFuel avs q hq
  exact ⟨q, q', hp, hr, by simpa using has_front_holds hq'⟩

theorem C1_fifo_sequential_witness :
    (([(0, 10), (1, 20), (2, 30)] : List (Nat × Nat)).map Prod.fst).Nodup ∧
    (∀ a ∈ ([(0, 10), (1, 20), (2, 30)] : List (Nat × Nat)).map Prod.fst, emptyHeap a = none) ∧
    ∃ q q', pushAll (new emptyHeap) [(0, 10), (1, 20), (2, 30)] = .ok q ∧
      rounds 0 ([(0, 10), (1, 20), (2, 30)] : List (Nat × Nat)).length q
        = .ok (([(0, 10), (1, 20), (2, 30)] : List (Nat × Nat)).map (fun c => (true, c.2)), q') ∧
      has_front q' = false :=
  ⟨by decide, fun _ _ => rfl,
    C1_fifo_sequential emptyHeap [(0, 10), (1, 20), (2, 30)] (by decide) (fun _ _ => rfl) 0⟩

/-- C3: representation invariant.  In every state reached from the constructor by completed
pushes and pops (pop only when `has_front()` is true), following the `next` links from
`head` visits a finite chain of pairwise distinct nodes; its first node is `head`, its last
node is `tail` and has no `next`; the items of the chain, in order, are the items pushed
and not yet popped, oldest first. -/
theorem C3_representation (tr : List (Op T)) (q : State T) (hr : Reach tr q) :
    ∃ chain : List (Nat × T),
      walk q.heap chain.length q.head = .ok chain ∧
      (chain.map Prod.fst).Nodup ∧
      q.head = chain.head?.map Prod.fst ∧
      q.tail = chain.getLast?.map Prod.fst ∧
      (∀ c, chain.getLast? = some c → get_next q.heap (some c.1) = .ok none) ∧
      chain.map Prod.snd = pending tr := by
  obtain ⟨chain, hq, hitems, _⟩ := hr.holds
  obtain ⟨hnd, hl, hhead, htail⟩ := hq
  refine ⟨chain, ?_, hnd, hhead, htail, fun c hc => Linked.last_next chain c hl hc, hitems⟩
  rw [hhead]
  exact walk_linked chain chain.length hl (le_refl _)

theorem C3_representation_witness :
    Reach [Op.push 0 7] oneItem ∧
    ∃ chain : List (Nat × Nat),
      walk oneItem.heap chain.length oneItem.head = .ok chain ∧
      (chain.map Prod.fst).Nodup ∧
      oneItem.head = chain.head?.map Prod.fst ∧
      oneItem.tail = chain.getLast?.map Prod.fst ∧
      (∀ c, chain.getLast? = some c → get_next oneItem.heap (some c.1) = .ok none) ∧
      chain.map Prod.snd = pending [Op.push 0 7] :=
  ⟨reach_oneItem, C3_representation [Op.push 0 7] oneItem reach_oneItem⟩

/-- C4 fails as stated: after `2 ^ 32` completed pushes `has_front()` is true, `head` and
`tail` are present, and yet the `unsigned int` counter of `size()` has wrapped to `0`. -/
theorem C4_counterexample :
    Reach (zerosHistory UINT_MOD) (pushedZeros UINT_MOD) ∧
    has_front (pushedZeros UINT_MOD) = true ∧
    (pushedZeros UINT_MOD).head ≠ none ∧
    (pushedZeros UINT_MOD).tail ≠ none ∧
    size UINT_MOD (pushedZeros UINT_MOD) = .ok 0 := by
  have hr := reach_pushedZeros UINT_MOD
  refine ⟨hr, by simp [has_front, pushedZeros, UINT_MOD], by simp [pushedZeros, UINT_MOD],
    by simp [pushedZeros, UINT_MOD], ?_⟩
  obtain ⟨chain, hq, _, hlen⟩ := hr.holds
  rw [pushes_zerosHistory, pops_zerosHistory, Nat.add_zero] at hlen
  have := size_holds hq UINT_MOD (le_of_eq hlen)
  rw [this, hlen, Nat.mod_self]

/-- C4, amended: in every state reached from the constructor by completed pushes and pops
(pop only when non-empty), `has_front()` is false iff `head` is absent iff `tail` is absent
iff no item is pending, and then `size()` returns `0`; conversely `size()` returning `0`
means `has_front()` is false when the queue holds fewer than `2 ^ 32` items.  The freshly
constructed queue has `has_front()` false and `size()` `0`. -/
theorem C4_emptiness_equivalence (tr : List (Op T)) (q : State T) (hr : Reach tr q)
    (fuel : Nat) :
    (has_front q = false ↔ q.head = none) ∧
    (has_front q = false ↔ q.tail = none) ∧
    (has_front q = false ↔ pending tr = []) ∧
    (has_front q = false → size fuel q = .ok 0) ∧
    (pushes tr - pops tr < UINT_MOD → (has_front q = false ↔ size fuel q = .ok 0)) ∧
    (∀ h : Heap T, has_front (new h) = false ∧ size fuel (new h) = .ok 0) := by
  obtain ⟨chain, hq, hitems, hlen⟩ := hr.holds
  have hfront := has_front_holds hq
  obtain ⟨hnd, hl, hhead, htail⟩ := hq
  have hzero : has_front q = false → size fuel q = .ok 0 := by
    intro hf
    cases chain with
    | nil =>
      simp only [List.head?_nil, Option.map_none'] at hhead
      unfold size
      rw [hhead]
      cases fuel <;> simp [sizeLoop]
    | cons c rest => simp [hfront] at hf
  refine ⟨?_, ?_, ?_, hzero, ?_, ?_⟩
  · cases chain <;> simp [hfront, hhead]
  · rcases List.eq_nil_or_concat chain with rfl | ⟨init, c, hc⟩
    · simp [hfront, htail]
    · rw [List.concat_eq_append] at hc
      subst hc
      simp [hfront, htail]
  · rw [← hitems]
    cases chain <;> simp [hfront]
  · intro hlt
    have hlen' : chain.length < UINT_MOD := by omega
    refine ⟨hzero, ?_⟩
    intro hsz
    cases chain with
    | nil => simp [hfront]
    | cons c rest =>
      exfalso
      unfold size at hsz
      rw [hhead] at hsz
      by_cases hf : (c :: rest).length ≤ fuel
      · rcases sizeLoop_linked (c :: rest) fuel 0 hl hf with h1 | ⟨_, h2⟩
        · rw [h1, Nat.zero_add, Nat.mod_eq_of_lt hlen'] at hsz
          simp at hsz
        · simp at h2
      · rw [sizeLoop_short (c :: rest) fuel 0 hl (by omega)] at hsz
        simp at hsz
  · intro h
    refine ⟨rfl, ?_⟩
    cases fuel <;> simp [size, sizeLoop, new]

theorem C4_emptiness_equivalence_witness :
    Reach [Op.push 0 7, Op.push 1 9] twoItems ∧
    ((has_front twoItems = false ↔ twoItems.head = none) ∧
    (has_front twoItems = false ↔ twoItems.tail = none) ∧
    (has_front twoItems = false ↔ pending [Op.push 0 7, Op.push 1 9] = []) ∧
    (has_front twoItems = false → size 5 twoItems = .ok 0) ∧
    (pushes [Op.push 0 7, Op.push 1 9] - pops [Op.push 0 7, Op.push 1 9] < UINT_MOD →
      (has_front twoItems = false ↔ size 5 twoItems = .ok 0)) ∧
    (∀ h : Heap Nat, has_front (new h) = false ∧ size 5 (new h) = .ok 0)) :=
  ⟨reach_twoItems,
    C4_emptiness_equivalence [Op.push 0 7, Op.push 1 9] twoItems reach_twoItems 5⟩

/-- C5: `size()` counts the enqueued items.  In every state reached from the constructor by
`p` completed pushes and `q` completed pops (each pop on a non-empty queue) with
`p - q < 2 ^ 32`, the walk of `size()` ends after exactly `p - q` iterations (any bound of
at least `p - q` iterations suffices, no smaller bound does) and returns `p - q`; so a
completed push raises the result by one and a pop lowers it by one.  `size` is a `const`
member: it reads the state and hands back no new one. -/
theorem C5_size_counts (tr : List (Op T)) (q : State T) (hr : Reach tr q)
    (hlt : pushes tr - pops tr < UINT_MOD) :
    pops tr ≤ pushes tr ∧
    (∀ fuel, pushes tr - pops tr ≤ fuel → size fuel q = .ok (pushes tr - pops tr)) ∧
    (∀ fuel, fuel < pushes tr - pops tr → size fuel q = .error .outOfFuel) := by
  obtain ⟨chain, hq, _, hlen⟩ := hr.holds
  have hn : pushes tr - pops tr = chain.length := by omega
  refine ⟨by omega, ?_, ?_⟩
  · intro fuel hf
    rw [hn] at hf ⊢
    rw [size_holds hq fuel hf, Nat.mod_eq_of_lt (by omega)]
  · intro fuel hf
    rw [hn] at hf
    unfold size
    rw [hq.2.2.1]
    exact sizeLoop_short chain fuel 0 hq.2.1 hf

theorem C5_size_counts_witness :
    Reach [Op.push 0 7] oneItem ∧ pushes [Op.push 0 7] - pops [Op.push 0 7] < UINT_MOD ∧
    (pops [Op.push 0 7] ≤ pushes [Op.push 0 7] ∧
    (∀ fuel, pushes [Op.push 0 7] - pops [Op.push 0 7] ≤ fuel →
      size fuel oneItem = .ok (pushes [Op.push 0 7] - pops [Op.push 0 7])) ∧
    (∀ fuel, fuel < pushes [Op.push 0 7] - pops [Op.push 0 7] →
      size fuel oneItem = .error .outOfFuel)) :=
  ⟨reach_oneItem, by decide, C5_size_counts [Op.push 0 7] oneItem reach_oneItem (by decide)⟩

/-- C6: allocation-failure atomicity of `push`.  For every queue state and item, when the
`new Node(item)` expression throws, `push` ends by propagating that exception and the state
(`head`, `tail`, every node) is the state before the call, so `size()`, `has_front()` and
`front()` return what they returned before. -/
theorem C6_push_failure_atomic (q : State T) (x : T) :
    ∃ q', push q x none = .ok (.threw_bad_alloc, q') ∧ q' = q ∧
      q'.head = q.head ∧ q'.tail = q.tail ∧ (∀ a, q'.heap a = q.heap a) ∧
      has_front q' = has_front q ∧ front q' = front q ∧ ∀ fuel, size fuel q' = size fuel q :=
  ⟨q, rfl, rfl, rfl, rfl, fun _ => rfl, rfl, rfl, fun _ => rfl⟩

/-- C7: drain completeness of `clear` and of the destructor.  In every state reached by
completed pushes and pops that holds `n` items, the loop `while(*this) pop();` ends after
exactly `n` executions of its body (every bound of at least `n` suffices, no smaller bound
does) without fault; afterwards `head` and `tail` are absent, `has_front()` is false and
`size()` is `0`; each of the `n` pairwise distinct nodes of the queue was alive before and
is destroyed, and no other address of the free store is touched. -/
theorem C7_drain_complete (tr : List (Op T)) (q : State T) (hr : Reach tr q) (popFuel : Nat) :
    ∃ (chain : List (Nat × T)) (q' : State T),
      walk q.heap chain.length q.head = .ok chain ∧ chain.length = (pending tr).length ∧
      (chain.map Prod.fst).Nodup ∧
      (∀ k, clear popFuel (chain.length + k) q = .ok q') ∧
      (∀ k, k < chain.length → clear popFuel k q = .error .outOfFuel) ∧
      q'.head = none ∧ q'.tail = none ∧ has_front q' = false ∧
      (∀ fuel, size fuel q' = .ok 0) ∧
      (∀ a ∈ chain.map Prod.fst, q.heap a ≠ none ∧ q'.heap a = none) ∧
      (∀ a, a ∉ chain.map Prod.fst → q'.heap a = q.heap a) := by
  obtain ⟨chain, hq, hitems, _⟩ := hr.holds
  obtain ⟨q', hc, hshort, hq', hdead, hframe⟩ := clear_holds popFuel chain q hq
  have hwalk : walk q.heap chain.length q.head = .ok chain := by
    rw [hq.2.2.1]
    exact walk_linked chain chain.length hq.2.1 (le_refl _)
  refine ⟨chain, q', hwalk, by rw [← hitems, List.length_map], hq.1, hc, hshort,
    by simpa using hq'.2.2.1, by simpa using hq'.2.2.2, by simpa using has_front_holds hq',
    ?_, hdead, hframe⟩
  intro fuel
  simpa using size_holds hq' fuel (Nat.zero_le _)

theorem C7_drain_complete_witness :
    Reach [Op.push 0 7] oneItem ∧
    ∃ (chain : List (Nat × Nat)) (q' : State Nat),
      walk oneItem.heap chain.length oneItem.head = .ok chain ∧
      chain.length = (pending [Op.push 0 7]).length ∧
      (chain.map Prod.fst).Nodup ∧
      (∀ k, clear 0 (chain.length + k) oneItem = .ok q') ∧
      (∀ k, k < chain.length → clear 0 k oneItem = .error .outOfFuel) ∧
      q'.head = none ∧ q'.tail = none ∧ has_front q' = false ∧
      (∀ fuel, size fuel q' = .ok 0) ∧
      (∀ a ∈ chain.map Prod.fst, oneItem.heap a ≠ none ∧ q'.heap a = none) ∧
      (∀ a, a ∉ chain.map Prod.fst → q'.heap a = oneItem.heap a) :=
  ⟨reach_oneItem, C7_drain_complete [Op.push 0 7] oneItem reach_oneItem 0⟩

/-- C8: push does not disturb the front.  In every non-empty state reached by completed
operations, a `push(x)` (its node created at a free address) returns, and afterwards
`front()` returns the item it returned before, `head` is the same node and `has_front()` is
still true. -/
theorem C8_push_keeps_front (tr : List (Op T)) (q : State T) (hr : Reach tr q)
    (hne : has_front q = true) (a : Nat) (x : T) (ha : q.heap a = none) :
    ∃ (q' : State T) (y : T), push q x (some a) = .ok (.returned, q') ∧
      front q = .ok y ∧ front q' = .ok y ∧ q'.head = q.head ∧ has_front q' = true := by
  obtain ⟨chain, hq, _, _⟩ := hr.holds
  have hf := has_front_holds hq
  rw [hne] at hf
  cases chain with
  | nil => simp at hf
  | cons c rest =>
    obtain ⟨b, y⟩ := c
    obtain ⟨q', hp, hq', _, hhead⟩ := push_holds hq a x ha
    have hqh : q.head = some b := by simpa using hq.2.2.1
    refine ⟨q', y, hp, front_holds hq, @front_holds T q' b y (rest ++ [(a, x)]) hq', ?_, ?_⟩
    · rw [hhead, hqh]; rfl
    · simpa using has_front_holds hq'

theorem C8_push_keeps_front_witness :
    Reach [Op.push 0 7] oneItem ∧ has_front oneItem = true ∧ oneItem.heap 1 = none ∧
    ∃ (q' : State Nat) (y : Nat), push oneItem 9 (some 1) = .ok (.returned, q') ∧
      front oneItem = .ok y ∧ front q' = .ok y ∧ q'.head = oneItem.head ∧
      has_front q' = true :=
  ⟨reach_oneItem, rfl, rfl,
    C8_push_keeps_front [Op.push 0 7] oneItem reach_oneItem rfl 1 9 rfl⟩

/-- C9 fails as stated: `pop()` on the freshly constructed (empty) queue dereferences
nothing and returns, leaving the queue as it was. -/
theorem C9_counterexample :
    has_front (new emptyHeap) = false ∧ pop 0 (new emptyHeap) = .ok (new emptyHeap) :=
  ⟨rfl, rfl⟩

/-- C9, amended: on an empty queue whose `tail` is absent as well (every empty state reached
by completed operations) `pop()` dereferences nothing: both compare-and-swaps succeed,
`delete` of the null pointer does nothing, the call returns and the queue is unchanged;
`front()` on it dereferences the null pointer.  When `head` is absent while `tail` is
present (a push between its exchange and its store to `head`), `pop()` dereferences the null
pointer. -/
theorem C9_pop_on_empty (h : Heap T) (fuel : Nat) :
    pop fuel { heap := h, head := none, tail := none }
      = .ok { heap := h, head := none, tail := none } ∧
    front { heap := h, head := none, tail := none } = .error .nullDeref ∧
    (∀ t : Nat, pop fuel { heap := h, head := none, tail := some t } = .error .nullDeref) ∧
    (∀ (tr : List (Op T)) (q : State T), Reach tr q → has_front q = false →
      pop fuel q = .ok q) := by
  refine ⟨rfl, rfl, ?_, ?_⟩
  · intro t
    cases fuel <;> simp [pop, waitNext, get_next, deref]
  · intro tr q hr hf
    obtain ⟨chain, hq, _, _⟩ := hr.holds
    have := has_front_holds hq
    rw [hf] at this
    cases chain with
    | cons c rest => simp at this
    | nil =>
      obtain ⟨_, _, hhead, htail⟩ := hq
      simp only [List.head?_nil, Option.map_none', List.getLast?_nil] at hhead htail
      obtain ⟨hp, hd, tl⟩ := q
      simp only at hhead htail
      subst hhead htail
      rfl

end Contract

/-! ## One pop racing with one push on the last element -/

section LastElement

variable {T : Type}

theorem RaceReach.race_step {h : Heap T} {X A : Nat} {x : T} (hXA : X ≠ A)
    (hX : h X = some ⟨x, none⟩) {c : Race T}
    (hc : RaceReach h X A x c) (b : Bool) :
    ∃ c', raceStep c b = .ok c' ∧ RaceReach h X A x c' := by
  have hAX : A ≠ X := hXA.symm
  cases hc <;> cases b <;>
    simp only [raceStep, popStep, pushStep, get_next, deref, set_next, delete, hX,
      Function.update_same, if_true, if_false, Bool.false_eq_true, Option.some.injEq, hXA, hAX,
      reduceCtorEq] <;>
    exact ⟨_, rfl, by constructor⟩

theorem RaceReach.race_run {h : Heap T} {X A : Nat} {x : T} (hXA : X ≠ A)
    (hX : h X = some ⟨x, none⟩) :
    ∀ (sched : List Bool) {c : Race T}, RaceReach h X A x c →
      ∃ c', race sched c = .ok c' ∧ RaceReach h X A x c'
  | [], c, hc => ⟨c, rfl, hc⟩
  | b :: sched, c, hc => by
    obtain ⟨c1, h1, hc1⟩ := hc.race_step hXA hX b
    obtain ⟨c2, h2, hc2⟩ := RaceReach.race_run hXA hX sched hc1
    exact ⟨c2, by simp only [race, h1, h2], hc2⟩

theorem race_append (s1 s2 : List Bool) (c c1 : Race T) (h1 : race s1 c = .ok c1) :
    race (s1 ++ s2) c = race s2 c1 := by
  induction s1 generalizing c with
  | nil =>
    simp only [race, Except.ok.injEq] at h1
    subst h1
    rfl
  | cons b s1 ih =>
    simp only [List.cons_append, race] at h1 ⊢
    cases hb : raceStep c b with
    | error e => simp [hb] at h1
    | ok c' =>
      simp only [hb] at h1 ⊢
      exact ih c' h1

/-- Two steps of the pushing thread followed by five steps of the popping thread finish both
calls from every configuration of the race. -/
theorem RaceReach.finish {h : Heap T} {X A : Nat} {x : T} (hXA : X ≠ A)
    (hX : h X = some ⟨x, none⟩) {c : Race T} (hc : RaceReach h X A x c) :
    ∃ c', race [false, false, true, true, true, true, true] c = .ok c' ∧
      c'.popPc = .done ∧ c'.pushPc = .done := by
  have hAX : A ≠ X := hXA.symm
  cases hc <;>
    simp [race, raceStep, popStep, pushStep, get_next, deref, set_next, delete, hX, hXA, hAX]

theorem RaceReach.final {h : Heap T} {X A : Nat} {x : T} {c : Race T}
    (hc : RaceReach h X A x c) (h1 : c.popPc = .done) (h2 : c.pushPc = .done) :
    c.mem.head = some A ∧ c.mem.tail = some A ∧ c.mem.heap X = none ∧
      ∀ b, b ≠ X → c.mem.heap b = h b := by
  cases hc <;> simp at h1 h2 <;>
    exact ⟨rfl, rfl, by simp, fun b hb => by simp [Function.update_noteq hb]⟩

/-- C10: the race on the last element loses nothing.  Start from a queue that holds exactly
one node `X` (`head == tail == X`, `X.next` absent) and let one `pop()` and one `push` of a
new node `A` take their atomic steps in any order.  No step faults; whenever both calls have
returned, `head == tail == A`, `A` is as it was created (its `next` absent), `X` is
destroyed and every other address of the free store is untouched; and from every point of
every schedule both calls return after at most two more steps of the pushing thread and
five of the popping thread. -/
theorem C10_last_element_race (h : Heap T) (X A : Nat) (x a : T) (hXA : X ≠ A)
    (hX : h X = some ⟨x, none⟩) (hA : h A = some ⟨a, none⟩) (sched : List Bool) :
    (∃ c, race sched ⟨⟨h, some X, some X⟩, .loadHead, .exchange (some A)⟩ = .ok c ∧
      (c.popPc = .done → c.pushPc = .done →
        c.mem.head = some A ∧ c.mem.tail = some A ∧ c.mem.heap A = some ⟨a, none⟩ ∧
        c.mem.heap X = none ∧ ∀ b, b ≠ X → c.mem.heap b = h b)) ∧
    (∃ c, race (sched ++ [false, false, true, true, true, true, true])
        ⟨⟨h, some X, some X⟩, .loadHead, .exchange (some A)⟩ = .ok c ∧
      c.popPc = .done ∧ c.pushPc = .done) := by
  obtain ⟨c, hrun, hc⟩ := RaceReach.race_run hXA hX sched (RaceReach.a1 (h := h) (X := X) (A := A) (x := x))
  refine ⟨⟨c, hrun, ?_⟩, ?_⟩
  · intro h1 h2
    obtain ⟨hh, ht, hx, hframe⟩ := hc.final h1 h2
    exact ⟨hh, ht, by rw [hframe A hXA.symm, hA], hx, hframe⟩
  · obtain ⟨c', hfin, hd⟩ := hc.finish hXA hX
    exact ⟨c', by rw [race_append sched _ _ c hrun, hfin], hd⟩

theorem C10_last_element_race_witness :
    (0 : Nat) ≠ 1 ∧ twoNodes 0 = some ⟨10, none⟩ ∧ twoNodes 1 = some ⟨20, none⟩ ∧
    (∃ c, race [true, true, false, true, false, true]
        ⟨⟨twoNodes, some 0, some 0⟩, .loadHead, .exchange (some 1)⟩ = .ok c ∧
      (c.popPc = .done → c.pushPc = .done →
        c.mem.head = some 1 ∧ c.mem.tail = some 1 ∧ c.mem.heap 1 = some ⟨20, none⟩ ∧
        c.mem.heap 0 = none ∧ ∀ b, b ≠ 0 → c.mem.heap b = twoNodes b)) ∧
    (∃ c, race ([true, true, false, true, false, true] ++ [false, false, true, true, true, true, true])
        ⟨⟨twoNodes, some 0, some 0⟩, .loadHead, .exchange (some 1)⟩ = .ok c ∧
      c.popPc = .done ∧ c.pushPc = .done) :=
  ⟨by decide, rfl, rfl,
    C10_last_element_race twoNodes 0 1 10 20 (by decide) rfl rfl
      [true, true, false, true, false, true]⟩

end LastElement

/-! ## Many producers and one consumer: the invariant is kept by every step -/

section Many

variable {T : Type}

theorem getElem?_fst_mem {Q : List (Nat × T)} {i a : Nat} {x : T} (h : Q[i]? = some (a, x)) :
    a ∈ Q.map Prod.fst :=
  List.mem_map.mpr ⟨(a, x), List.getElem?_mem h, rfl⟩

theorem nodup_index_unique {Q : List (Nat × T)} (hnd : (Q.map Prod.fst).Nodup) {i j a : Nat}
    {x y : T} (hi : Q[i]? = some (a, x)) (hj : Q[j]? = some (a, y)) : i = j := by
  have hi' : (Q.map Prod.fst)[i]? = some a := by simp [List.getElem?_map, hi]
  have hj' : (Q.map Prod.fst)[j]? = some a := by simp [List.getElem?_map, hj]
  obtain ⟨hil, hia⟩ := List.getElem?_eq_some_iff.mp hi'
  obtain ⟨hjl, hja⟩ := List.getElem?_eq_some_iff.mp hj'
  exact (List.Nodup.getElem_inj_iff hnd).mp (hia.trans hja.symm)

theorem last_eq_first {a : Nat} {x : T} {rest : List (Nat × T)}
    (hnd : (((a, x) :: rest).map Prod.fst).Nodup)
    (hl : ((a, x) :: rest).getLast?.map Prod.fst = some a) : rest = [] := by
  cases rest with
  | nil => rfl
  | cons c r =>
    exfalso
    rw [List.getLast?_cons_cons] at hl
    cases hgl : (c :: r).getLast? with
    | none => simp [hgl] at hl
    | some z =>
      rw [hgl] at hl
      simp only [Option.map_some', Option.some.injEq] at hl
      have hmem : a ∈ (c :: r).map Prod.fst :=
        List.mem_map.mpr ⟨z, List.mem_of_getLast?_eq_some hgl, hl⟩
      simp only [List.map_cons, List.nodup_cons] at hnd
      exact hnd.1 hmem

theorem head_not_none_iff {s : Sys T} {Q : List (Nat × T)} (hI : Inv s Q)
    (hst : s.cons.stale = none) (hh : s.mem.head ≠ none) :
    Q ≠ [] ∧ ¬ FirstPending s ∧ s.mem.head = Q.head?.map Prod.fst := by
  have h1 : ¬ (Q = [] ∨ FirstPending s) := by
    intro h
    exact hh ((hI.head_stale h).trans hst)
  push_neg at h1
  exact ⟨h1.1, h1.2, hI.head_first h1.1 h1.2⟩

/-- A consumer step that touches neither the memory nor the producers keeps everything
but the clause about the consumer. -/
theorem Inv.cons_only {s s' : Sys T} {Q : List (Nat × T)} (hI : Inv s Q)
    (hm : s'.mem = s.mem) (hp : s'.prod = s.prod)
    (h1 : s.cons.stale = none) (h2 : s'.cons.stale = none)
    (h4 : s'.cons.detached = none) (hc : ConsInv s' Q) : Inv s' Q where
  nodup := hI.nodup
  chain := by rw [hm, hp]; exact hI.chain
  tail := by rw [hm]; exact hI.tail
  head_stale := by
    intro h
    have h' : Q = [] ∨ FirstPending s := by
      rcases h with h | ⟨p, b, hb⟩
      · exact Or.inl h
      · exact Or.inr ⟨p, b, by rw [← hp]; exact hb⟩
    rw [hm, h2, ← h1]
    exact hI.head_stale h'
  head_first := by
    intro hne hfp
    rw [hm]
    exact hI.head_first hne (fun ⟨p, b, hb⟩ => hfp ⟨p, b, by rw [hp]; exact hb⟩)
  exch := by
    intro p nd hpn
    rw [hp] at hpn
    obtain ⟨a, x, h5, h6, h7, _⟩ := hI.exch p nd hpn
    exact ⟨a, x, h5, by rw [hm]; exact h6, h7, by rw [h4]; simp⟩
  link := by rw [hm, hp]; exact hI.link
  inj := by rw [hp]; exact hI.inj
  detached := by
    intro c hc'
    rw [h4] at hc'
    simp at hc'
  cons := hc

theorem Inv.init (h : Heap T) : Inv (Sys.init h) [] where
  nodup := by simp
  chain := by simp
  tail := rfl
  head_stale := fun _ => rfl
  head_first := fun h => absurd rfl h
  exch := by simp [Sys.init]
  link := by simp [Sys.init]
  inj := by simp [Sys.init, PushPc.node]
  detached := by simp [Sys.init, ConsPc.detached]
  cons := by simp [ConsInv, Sys.init]

theorem step_check {s : Sys T} {Q : List (Nat × T)} (hI : Inv s Q) (hc : s.cons = .check) :
    ∃ s' Q', sysStep s .consumer = .ok s' ∧ Inv s' Q' := by
  by_cases hf : has_front s.mem = true
  · refine ⟨{ s with cons := .callFront }, Q, by simp [sysStep, hc, hf], ?_⟩
    refine hI.cons_only rfl rfl (by simp [hc, ConsPc.stale]) rfl rfl ?_
    have := hI.cons
    simp only [ConsInv, hc] at this
    simp only [ConsInv]
    exact ⟨this, by simpa [has_front] using hf⟩
  · exact ⟨s, Q, by simp [sysStep, hc, hf], hI⟩

theorem step_callFront {s : Sys T} {Q : List (Nat × T)} (hI : Inv s Q)
    (hc : s.cons = .callFront) :
    ∃ s' Q', sysStep s .consumer = .ok s' ∧ Inv s' Q' := by
  have hci := hI.cons
  simp only [ConsInv, hc] at hci
  obtain ⟨hlog, hh⟩ := hci
  obtain ⟨hne, hfp, hhead⟩ := head_not_none_iff hI (by simp [hc, ConsPc.stale]) hh
  cases hQ : Q with
  | nil => exact absurd hQ hne
  | cons c rest =>
    obtain ⟨a, x⟩ := c
    subst hQ
    obtain ⟨nx, hnode, _⟩ := hI.chain 0 a x (by simp)
    have hha : s.mem.head = some a := by simpa using hhead
    refine ⟨{ s with cons := .inPop .loadHead, popped := s.popped ++ [x] }, (a, x) :: rest,
      by simp [sysStep, hc, front, deref, hha, hnode], ?_⟩
    refine hI.cons_only rfl rfl (by simp [hc, ConsPc.stale]) rfl rfl ?_
    simp only [ConsInv, FrontRead]
    exact ⟨hh, s.popped, x, rfl, by simp, hlog⟩

theorem step_loadHead {s : Sys T} {Q : List (Nat × T)} (hI : Inv s Q)
    (hc : s.cons = .inPop .loadHead) :
    ∃ s' Q', sysStep s .consumer = .ok s' ∧ Inv s' Q' := by
  have hci := hI.cons
  simp only [ConsInv, hc] at hci
  refine ⟨{ s with cons := .inPop (.casTail s.mem.head) }, Q,
    by simp [sysStep, hc, popStep], ?_⟩
  refine hI.cons_only rfl rfl (by simp [hc, ConsPc.stale]) rfl rfl ?_
  exact ⟨rfl, hci⟩

theorem frontRead_cons {s : Sys T} {Q : List (Nat × T)} (hI : Inv s Q)
    (hst : s.cons.stale = none) (hf : FrontRead s Q) :
    ∃ a x rest pp, Q = (a, x) :: rest ∧ s.mem.head = some a ∧ ¬ FirstPending s ∧
      s.popped = pp ++ [x] ∧ pp ++ x :: rest.map Prod.snd = s.pushed := by
  obtain ⟨hh, pp, x, hpop, hx, hlog⟩ := hf
  obtain ⟨hne, hfp, hhead⟩ := head_not_none_iff hI hst hh
  cases hQ : Q with
  | nil => exact absurd hQ hne
  | cons c rest =>
    obtain ⟨a, y⟩ := c
    subst hQ
    simp only [List.head?_cons, Option.map_some', Option.some.injEq] at hx hhead
    subst hx
    exact ⟨a, y, rest, pp, rfl, hhead, hfp, hpop, by simpa using hlog⟩

theorem step_casTail {s : Sys T} {Q : List (Nat × T)} (hI : Inv s Q) (p : Ptr)
    (hc : s.cons = .inPop (.casTail p)) :
    ∃ s' Q', sysStep s .consumer = .ok s' ∧ Inv s' Q' := by
  have hci := hI.cons
  simp only [ConsInv, hc] at hci
  obtain ⟨hp, hfr⟩ := hci
  obtain ⟨a, x, rest, pp, rfl, hha, hfp, hpop, hlog⟩ :=
    frontRead_cons hI (by simp [hc, ConsPc.stale]) hfr
  rw [hha] at hp
  subst hp
  obtain ⟨nx, hnode, _⟩ := hI.chain 0 a x (by simp)
  by_cases ht : s.mem.tail = some a
  · -- the compare-and-swap of tail succeeds: `a` was the only node
    have hrest : rest = [] := last_eq_first hI.nodup (by rw [← hI.tail, ht])
    subst hrest
    refine ⟨{ s with mem := { s.mem with tail := none }, cons := .inPop (.casHead (some a)) },
      [], by simp [sysStep, hc, popStep, ht], ?_⟩
    refine ⟨by simp, by simp, rfl, fun _ => hha, fun h => absurd rfl h, ?_, ?_, hI.inj, ?_, ?_⟩
    · intro p' nd hp'
      obtain ⟨a', x', h1, h2, h3, _⟩ := hI.exch p' nd hp'
      refine ⟨a', x', h1, h2, by simp, ?_⟩
      simp only [ConsPc.detached, ne_eq, Option.some.injEq]
      rintro rfl
      exact h3 (by simp)
    · intro p' nd old hp'
      exfalso
      obtain ⟨b, x', i, _, hi, hcase⟩ := hI.link p' nd old hp'
      rcases hcase with ⟨_, hold⟩ | ⟨j, a', y, hij, hj, _, _⟩
      · subst hold
        obtain ⟨hil, _⟩ := List.getElem?_eq_some_iff.mp hi
        have hi0 : i = 0 := by simpa using hil
        subst hi0
        simp only [List.getElem?_cons_zero, Option.some.injEq, Prod.mk.injEq] at hi
        exact hfp ⟨p', b, by rw [hp', ‹nd = some b›]⟩
      · subst hij
        simp at hi
    · intro c hc'
      simp only [ConsPc.detached, Option.some.injEq] at hc'
      subst hc'
      exact ⟨by simp [hnode], by simp⟩
    · show (∃ c, some a = some c) ∧ _
      exact ⟨⟨a, rfl⟩, by simpa [hpop] using hlog⟩
  · refine ⟨{ s with cons := .inPop (.readNext (some a)) }, (a, x) :: rest,
      by simp [sysStep, hc, popStep, ht], ?_⟩
    refine hI.cons_only rfl rfl (by simp [hc, ConsPc.stale]) rfl rfl ?_
    refine ⟨hha.symm, hfr, ?_⟩
    cases rest with
    | nil =>
      exfalso
      apply ht
      simpa using hI.tail
    | cons c r => simp

theorem step_readNext {s : Sys T} {Q : List (Nat × T)} (hI : Inv s Q) (p : Ptr)
    (hc : s.cons = .inPop (.readNext p)) :
    ∃ s' Q', sysStep s .consumer = .ok s' ∧ Inv s' Q' := by
  have hci := hI.cons
  simp only [ConsInv, hc] at hci
  obtain ⟨hp, hfr, hlen⟩ := hci
  obtain ⟨a, x, rest, pp, rfl, hha, hfp, hpop, hlog⟩ :=
    frontRead_cons hI (by simp [hc, ConsPc.stale]) hfr
  rw [hha] at hp
  subst hp
  obtain ⟨nx, hnode, hnx⟩ := hI.chain 0 a x (by simp)
  cases nx with
  | none =>
    refine ⟨{ s with mem := s.mem, cons := .inPop (.readNext (some a)) }, (a, x) :: rest,
      by simp [sysStep, hc, popStep, get_next, deref, hnode], ?_⟩
    exact hI.cons_only rfl rfl (by simp [hc, ConsPc.stale]) rfl rfl ⟨hha.symm, hfr, hlen⟩
  | some n =>
    refine ⟨{ s with mem := s.mem, cons := .inPop (.storeHead (some a) n) }, (a, x) :: rest,
      by simp [sysStep, hc, popStep, get_next, deref, hnode], ?_⟩
    refine hI.cons_only rfl rfl (by simp [hc, ConsPc.stale]) rfl rfl ⟨hha.symm, hfr, a, x, ?_⟩
    rcases hnx with h1 | ⟨h1, _⟩
    · exact ⟨by simp, by simpa using h1.symm, hnode⟩
    · simp at h1

theorem step_storeHead {s : Sys T} {Q : List (Nat × T)} (hI : Inv s Q) (p : Ptr) (n : Nat)
    (hc : s.cons = .inPop (.storeHead p n)) :
    ∃ s' Q', sysStep s .consumer = .ok s' ∧ Inv s' Q' := by
  have hci := hI.cons
  simp only [ConsInv, hc] at hci
  obtain ⟨hp, hfr, a0, x0, h0, h1, hnode⟩ := hci
  obtain ⟨a, x, rest, pp, rfl, hha, hfp, hpop, hlog⟩ :=
    frontRead_cons hI (by simp [hc, ConsPc.stale]) hfr
  rw [hha] at hp
  subst hp
  simp only [List.getElem?_cons_zero, Option.some.injEq, Prod.mk.injEq] at h0
  obtain ⟨rfl, rfl⟩ := h0
  cases rest with
  | nil => simp at h1
  | cons c r =>
    obtain ⟨n', y⟩ := c
    simp only [List.getElem?_cons_succ, List.getElem?_cons_zero, Option.map_some',
      Option.some.injEq] at h1
    subst h1
    have hnd := hI.nodup
    simp only [List.map_cons, List.nodup_cons] at hnd
    have hfp' : ∀ s' : Sys T, s'.prod = s.prod → ¬ FirstPending s' := by
      intro s' hs' ⟨p', b, hb⟩
      exact hfp ⟨p', b, by rw [← hs']; exact hb⟩
    refine ⟨{ s with mem := { s.mem with head := some n' }, cons := .inPop (.del (some a)) },
      (n', y) :: r, by simp [sysStep, hc, popStep], ?_⟩
    refine ⟨by simpa using hnd.2, ?_, ?_, ?_, fun _ _ => by simp, ?_, ?_, hI.inj, ?_, ?_⟩
    · intro i a x hi
      have := hI.chain (i + 1) a x (by simpa using hi)
      simpa using this
    · have := hI.tail
      rw [List.getLast?_cons_cons] at this
      exact this
    · rintro (h | h)
      · simp at h
      · exact absurd h (hfp' _ rfl)
    · intro p' nd hp'
      obtain ⟨a', x', h1, h2, h3, _⟩ := hI.exch p' nd hp'
      refine ⟨a', x', h1, h2, ?_, ?_⟩
      · intro hmem
        apply h3
        simp only [List.map_cons, List.mem_cons] at hmem ⊢
        exact Or.inr hmem
      · simp only [ConsPc.detached, ne_eq, Option.some.injEq]
        rintro rfl
        exact h3 (by simp)
    · intro p' nd old hp'
      obtain ⟨b, x', i, hb, hi, hcase⟩ := hI.link p' nd old hp'
      rcases hcase with ⟨_, hold⟩ | ⟨j, a', y', hij, hj, hold, hnode'⟩
      · subst hold
        exact absurd ⟨p', b, by rw [hp', hb]⟩ hfp
      · subst hij
        cases j with
        | zero =>
          simp only [List.getElem?_cons_zero, Option.some.injEq, Prod.mk.injEq] at hj
          obtain ⟨rfl, rfl⟩ := hj
          rw [hnode] at hnode'
          simp at hnode'
        | succ j =>
          refine ⟨b, x', j + 1, hb, by simpa using hi, Or.inr ⟨j, a', y', rfl, ?_, hold, hnode'⟩⟩
          simpa using hj
    · intro c hc'
      simp only [ConsPc.detached, Option.some.injEq] at hc'
      subst hc'
      exact ⟨by simp [hnode], by simpa using hnd.1⟩
    · show (∃ c, some a = some c) ∧ _
      exact ⟨⟨a, rfl⟩, by simpa [hpop] using hlog⟩

theorem step_casHead {s : Sys T} {Q : List (Nat × T)} (hI : Inv s Q) (p : Ptr)
    (hc : s.cons = .inPop (.casHead p)) :
    ∃ s' Q', sysStep s .consumer = .ok s' ∧ Inv s' Q' := by
  have hci := hI.cons
  simp only [ConsInv, hc] at hci
  obtain ⟨⟨c, rfl⟩, hlog⟩ := hci
  obtain ⟨hlive, hcQ⟩ := hI.detached c (by simp [hc, ConsPc.detached])
  have hexch : ∀ (s' : Sys T), s'.mem.heap = s.mem.heap → s'.prod = s.prod →
      s'.cons = .inPop (.del (some c)) → ∀ p nd, s'.prod p = .exchange nd →
      ∃ a x, nd = some a ∧ s'.mem.heap a = some { item := x, next := none } ∧
        a ∉ Q.map Prod.fst ∧ s'.cons.detached ≠ some a := by
    intro s' h1 h2 h3 p' nd hp'
    rw [h2] at hp'
    obtain ⟨a', x', h4, h5, h6, h7⟩ := hI.exch p' nd hp'
    refine ⟨a', x', h4, by rw [h1]; exact h5, h6, ?_⟩
    simpa [h3, hc, ConsPc.detached] using h7
  by_cases hst : Q = [] ∨ FirstPending s
  · have hh : s.mem.head = some c := by simpa [hc, ConsPc.stale] using hI.head_stale hst
    refine ⟨{ s with mem := { s.mem with head := none }, cons := .inPop (.del (some c)) }, Q,
      by simp [sysStep, hc, popStep, hh], ?_⟩
    refine ⟨hI.nodup, hI.chain, hI.tail, fun _ => rfl, ?_, hexch _ rfl rfl rfl, hI.link,
      hI.inj, ?_, ⟨⟨c, rfl⟩, hlog⟩⟩
    · intro hne hfp
      exact absurd hst (by push_neg; exact ⟨hne, hfp⟩)
    · intro c' hc'
      simp only [ConsPc.detached, Option.some.injEq] at hc'
      subst hc'
      exact ⟨hlive, hcQ⟩
  · push_neg at hst
    have hh := hI.head_first hst.1 hst.2
    have hne : s.mem.head ≠ some c := by
      rw [hh]
      intro heq
      apply hcQ
      cases Q with
      | nil => simp at heq
      | cons z r =>
        simp only [List.head?_cons, Option.map_some', Option.some.injEq] at heq
        simp [heq]
    refine ⟨{ s with mem := s.mem, cons := .inPop (.del (some c)) }, Q,
      by simp [sysStep, hc, popStep, hne], ?_⟩
    refine ⟨hI.nodup, hI.chain, hI.tail, ?_, fun _ _ => hh, hexch _ rfl rfl rfl, hI.link,
      hI.inj, ?_, ⟨⟨c, rfl⟩, hlog⟩⟩
    · rintro (h | h)
      · exact absurd h hst.1
      · exact absurd h hst.2
    · intro c' hc'
      simp only [ConsPc.detached, Option.some.injEq] at hc'
      subst hc'
      exact ⟨hlive, hcQ⟩

theorem step_del {s : Sys T} {Q : List (Nat × T)} (hI : Inv s Q) (p : Ptr)
    (hc : s.cons = .inPop (.del p)) :
    ∃ s' Q', sysStep s .consumer = .ok s' ∧ Inv s' Q' := by
  have hci := hI.cons
  simp only [ConsInv, hc] at hci
  obtain ⟨⟨c, rfl⟩, hlog⟩ := hci
  obtain ⟨hlive, hcQ⟩ := hI.detached c (by simp [hc, ConsPc.detached])
  obtain ⟨nd, hnd⟩ := Option.ne_none_iff_exists'.mp hlive
  have hQc : ∀ {i a : Nat} {x : T}, Q[i]? = some (a, x) → a ≠ c := by
    intro i a x hi hac
    exact hcQ (hac ▸ getElem?_fst_mem hi)
  refine ⟨{ s with mem := { s.mem with heap := Function.update s.mem.heap c none },
                   cons := .check }, Q,
    by simp [sysStep, hc, popStep, delete, hnd], ?_⟩
  refine ⟨hI.nodup, ?_, hI.tail, ?_, hI.head_first, ?_, ?_, hI.inj, ?_, hlog⟩
  · intro i a x hi
    obtain ⟨nx, h1, h2⟩ := hI.chain i a x hi
    exact ⟨nx, by simp [Function.update_noteq (hQc hi), h1], h2⟩
  · intro h
    simpa [hc, ConsPc.stale] using hI.head_stale h
  · intro p' nd' hp'
    obtain ⟨a', x', h4, h5, h6, h7⟩ := hI.exch p' nd' hp'
    have hac : a' ≠ c := by
      intro hac
      apply h7
      simp [hc, ConsPc.detached, hac]
    exact ⟨a', x', h4, by simp [Function.update_noteq hac, h5], h6, by simp [ConsPc.detached]⟩
  · intro p' nd' old hp'
    obtain ⟨b, x', i, hb, hi, hcase⟩ := hI.link p' nd' old hp'
    refine ⟨b, x', i, hb, hi, ?_⟩
    rcases hcase with h | ⟨j, a', y', hij, hj, hold, hnode'⟩
    · exact Or.inl h
    · exact Or.inr ⟨j, a', y', hij, hj, hold, by simp [Function.update_noteq (hQc hj), hnode']⟩
  · intro c' hc'
    simp [ConsPc.detached] at hc'

theorem step_consumer {s : Sys T} {Q : List (Nat × T)} (hI : Inv s Q) :
    ∃ s' Q', sysStep s .consumer = .ok s' ∧ Inv s' Q' := by
  cases hc : s.cons with
  | check => exact step_check hI hc
  | callFront => exact step_callFront hI hc
  | inPop pc =>
    cases pc with
    | loadHead => exact step_loadHead hI hc
    | casTail p => exact step_casTail hI p hc
    | casHead p => exact step_casHead hI p hc
    | readNext p => exact step_readNext hI p hc
    | storeHead p n => exact step_storeHead hI p n hc
    | del p => exact step_del hI p hc
    | done =>
      have := hI.cons
      simp [ConsInv, hc] at this

/-- The clause about the consumer only reads the consumer's control point, the histories,
`head`, and which nodes are linked. -/
theorem ConsInv.transfer {s s' : Sys T} {Q : List (Nat × T)} (hc : s'.cons = s.cons)
    (hpop : s'.popped = s.popped) (hpush : s'.pushed = s.pushed)
    (hh : s'.mem.head = s.mem.head)
    (hl : ∀ a x n, s.mem.heap a = some { item := x, next := some n } →
      s'.mem.heap a = some { item := x, next := some n })
    (h : ConsInv s Q) : ConsInv s' Q := by
  have hfr : FrontRead s Q → FrontRead s' Q := by
    intro hf
    unfold FrontRead at hf ⊢
    rw [hh, hpop, hpush]
    exact hf
  unfold ConsInv at h ⊢
  rw [hc]
  cases hcs : s.cons with
  | check => simpa [hcs, hpop, hpush] using h
  | callFront => simpa [hcs, hpop, hpush, hh] using h
  | inPop pc =>
    rw [hcs] at h
    cases pc with
    | loadHead => exact hfr h
    | casTail p => exact ⟨by rw [hh]; exact h.1, hfr h.2⟩
    | casHead p => simpa [hpop, hpush] using h
    | readNext p => exact ⟨by rw [hh]; exact h.1, hfr h.2.1, h.2.2⟩
    | storeHead p n =>
      obtain ⟨h1, h2, a, x, h3, h4, h5⟩ := h
      exact ⟨by rw [hh]; exact h1, hfr h2, a, x, h3, h4, hl a x n h5⟩
    | del p => simpa [hpop, hpush] using h
    | done => exact h

theorem Inv.queue_live {s : Sys T} {Q : List (Nat × T)} (hI : Inv s Q) {a : Nat}
    (ha : a ∈ Q.map Prod.fst) : s.mem.heap a ≠ none := by
  obtain ⟨⟨a', x⟩, hmem, rfl⟩ := List.mem_map.mp ha
  obtain ⟨i, hi⟩ := List.getElem?_of_mem hmem
  obtain ⟨nx, h1, _⟩ := hI.chain i a' x hi
  simp [h1]

theorem Inv.node_live {s : Sys T} {Q : List (Nat × T)} (hI : Inv s Q) {p a : Nat}
    (hp : (s.prod p).node = some a) : s.mem.heap a ≠ none := by
  cases hpp : s.prod p with
  | done => simp [hpp, PushPc.node] at hp
  | exchange nd =>
    obtain ⟨a', x, h1, h2, _, _⟩ := hI.exch p nd hpp
    simp only [hpp, PushPc.node, h1, Option.some.injEq] at hp
    subst hp
    simp [h2]
  | link nd old =>
    obtain ⟨b, x, i, h1, h2, _⟩ := hI.link p nd old hpp
    simp only [hpp, PushPc.node, h1, Option.some.injEq] at hp
    subst hp
    exact hI.queue_live (getElem?_fst_mem h2)

theorem step_call {s : Sys T} {Q : List (Nat × T)} (hI : Inv s Q) (p a : Nat) (x : T) :
    ∃ s' Q', sysStep s (.call p a x) = .ok s' ∧ Inv s' Q' := by
  by_cases hen : s.prod p = .done ∧ (s.mem.heap a).isNone = true
  swap
  · exact ⟨s, Q, by simp only [sysStep, hen, if_false], hI⟩
  obtain ⟨hp, ha⟩ := hen
  have ha' : s.mem.heap a = none := by simpa using ha
  have hne : ∀ {b : Nat}, s.mem.heap b ≠ none → b ≠ a := by
    rintro b hb rfl
    exact hb ha'
  have hother : ∀ {p' : Nat} {pc : PushPc}, pc ≠ .done → s.prod p' = pc → p' ≠ p := by
    rintro p' pc hpc hp' rfl
    exact hpc (hp'.symm.trans hp)
  refine ⟨{ s with
      mem := { s.mem with
        heap := Function.update s.mem.heap a (some { item := x, next := none }) },
      prod := Function.update s.prod p (.exchange (some a)) }, Q,
    by simp [sysStep, hp, ha'], ?_⟩
  refine ⟨hI.nodup, ?_, hI.tail, ?_, ?_, ?_, ?_, ?_, ?_, ?_⟩
  · intro i a' x' hi
    obtain ⟨nx, h1, h2⟩ := hI.chain i a' x' hi
    refine ⟨nx, ?_, ?_⟩
    · simp only
      rw [Function.update_noteq (hne (by simp [h1]))]
      exact h1
    · rcases h2 with h2 | ⟨h2, p', b, h3, h4⟩
      · exact Or.inl h2
      · refine Or.inr ⟨h2, p', b, h3, ?_⟩
        simp only
        rw [Function.update_noteq (hother (by simp) h4)]
        exact h4
  · rintro (h | ⟨p', b, hb⟩)
    · exact hI.head_stale (Or.inl h)
    · simp only at hb
      by_cases hpp : p' = p
      · subst hpp
        simp at hb
      · rw [Function.update_noteq hpp] at hb
        exact hI.head_stale (Or.inr ⟨p', b, hb⟩)
  · intro hne' hfp
    apply hI.head_first hne'
    rintro ⟨p', b, hb⟩
    apply hfp
    refine ⟨p', b, ?_⟩
    simp only
    rw [Function.update_noteq (hother (by simp) hb)]
    exact hb
  · intro p' nd hp'
    simp only at hp'
    by_cases hpp : p' = p
    · subst hpp
      simp only [Function.update_same, PushPc.exchange.injEq] at hp'
      subst hp'
      refine ⟨a, x, rfl, by simp, fun hmem => hI.queue_live hmem ha', ?_⟩
      intro hd
      exact (hI.detached a hd).1 ha'
    · rw [Function.update_noteq hpp] at hp'
      obtain ⟨a', x', h1, h2, h3, h4⟩ := hI.exch p' nd hp'
      refine ⟨a', x', h1, ?_, h3, h4⟩
      simp only
      rw [Function.update_noteq (hne (by simp [h2]))]
      exact h2
  · intro p' nd old hp'
    simp only at hp'
    by_cases hpp : p' = p
    · subst hpp
      simp at hp'
    · rw [Function.update_noteq hpp] at hp'
      obtain ⟨b, x', i, hb, hi, hcase⟩ := hI.link p' nd old hp'
      refine ⟨b, x', i, hb, hi, ?_⟩
      rcases hcase with h | ⟨j, a', y', hij, hj, hold, hnode'⟩
      · exact Or.inl h
      · refine Or.inr ⟨j, a', y', hij, hj, hold, ?_⟩
        simp only
        rw [Function.update_noteq (hne (by simp [hnode']))]
        exact hnode'
  · intro p1 p2 a1 h1 h2
    simp only at h1 h2
    by_cases hp1 : p1 = p <;> by_cases hp2 : p2 = p
    · rw [hp1, hp2]
    · exfalso
      subst hp1
      simp only [Function.update_same, PushPc.node, Option.some.injEq] at h1
      subst h1
      rw [Function.update_noteq hp2] at h2
      exact hI.node_live h2 ha'
    · exfalso
      subst hp2
      simp only [Function.update_same, PushPc.node, Option.some.injEq] at h2
      subst h2
      rw [Function.update_noteq hp1] at h1
      exact hI.node_live h1 ha'
    · rw [Function.update_noteq hp1] at h1
      rw [Function.update_noteq hp2] at h2
      exact hI.inj p1 p2 a1 h1 h2
  · intro c hc
    obtain ⟨h1, h2⟩ := hI.detached c hc
    refine ⟨?_, h2⟩
    simp only
    rw [Function.update_noteq (hne h1)]
    exact h1
  · refine @ConsInv.transfer T s _ Q rfl rfl rfl rfl ?_ hI.cons
    intro a' x' n hn
    simp only
    rw [Function.update_noteq (hne (by simp [hn]))]
    exact hn

theorem step_idle {s : Sys T} {Q : List (Nat × T)} (hI : Inv s Q) (p : Nat)
    (hp : s.prod p = .done) :
    ∃ s' Q', sysStep s (.producer p) = .ok s' ∧ Inv s' Q' := by
  refine ⟨s, Q, ?_, hI⟩
  obtain ⟨m, c, pr, pu, po⟩ := s
  simp only at hp
  simp only [sysStep, hp, pushStep, List.append_nil, Except.ok.injEq, Sys.mk.injEq, true_and,
    and_true]
  rw [← hp, Function.update_eq_self]

theorem update_done_ne {pr : Nat → PushPc} {p p' : Nat} {pc : PushPc} (hpc : pc ≠ .done)
    (h : Function.update pr p .done p' = pc) : p' ≠ p ∧ pr p' = pc := by
  by_cases hpp : p' = p
  · subst hpp
    simp only [Function.update_same] at h
    exact absurd h.symm hpc
  · rw [Function.update_noteq hpp] at h
    exact ⟨hpp, h⟩

theorem inj_update_done {pr : Nat → PushPc} {p : Nat}
    (hinj : ∀ p1 p2 a, (pr p1).node = some a → (pr p2).node = some a → p1 = p2) :
    ∀ p1 p2 a, (Function.update pr p .done p1).node = some a →
      (Function.update pr p .done p2).node = some a → p1 = p2 := by
  intro p1 p2 a h1 h2
  by_cases hp1 : p1 = p
  · subst hp1
    simp [PushPc.node] at h1
  · by_cases hp2 : p2 = p
    · subst hp2
      simp [PushPc.node] at h2
    · rw [Function.update_noteq hp1] at h1
      rw [Function.update_noteq hp2] at h2
      exact hinj p1 p2 a h1 h2

/-- The store to `head` of a push that found `tail` null. -/
theorem step_link_none {s : Sys T} {Q : List (Nat × T)} (hI : Inv s Q) (p : Nat) (nd : Ptr)
    (hp : s.prod p = .link nd none) :
    ∃ s' Q', sysStep s (.producer p) = .ok s' ∧ Inv s' Q' := by
  obtain ⟨b, x, i, hb, hi, hcase⟩ := hI.link p nd none hp
  subst hb
  have hi0 : i = 0 := by
    rcases hcase with ⟨h, _⟩ | ⟨j, a', y', _, _, hold, _⟩
    · exact h
    · simp at hold
  subst hi0
  have hQ : Q ≠ [] := by
    rintro rfl
    simp at hi
  have hnofp : ∀ (s' : Sys T), s'.prod = Function.update s.prod p .done → ¬ FirstPending s' := by
    rintro s' hs' ⟨p', b', hb'⟩
    rw [hs'] at hb'
    obtain ⟨hpp, hb'⟩ := update_done_ne (by simp) hb'
    obtain ⟨b2, x2, i2, h1, h2, hcase2⟩ := hI.link p' (some b') none hb'
    have hi2 : i2 = 0 := by
      rcases hcase2 with ⟨h, _⟩ | ⟨j, a', y', _, _, hold, _⟩
      · exact h
      · simp at hold
    subst hi2
    rw [hi] at h2
    simp only [Option.some.injEq, Prod.mk.injEq] at h1 h2
    apply hpp
    apply hI.inj p' p b
    · rw [hb', PushPc.node, h1, h2.1]
    · rw [hp, PushPc.node]
  have hstale : s.mem.head = s.cons.stale := hI.head_stale (Or.inr ⟨p, b, hp⟩)
  refine ⟨{ s with mem := { s.mem with head := some b },
                   prod := Function.update s.prod p .done }, Q,
    by simp [sysStep, hp, pushStep], ?_⟩
  refine ⟨hI.nodup, ?_, hI.tail, ?_, ?_, ?_, ?_, inj_update_done hI.inj, hI.detached, ?_⟩
  · intro k a' x' hk
    obtain ⟨nx, h1, h2⟩ := hI.chain k a' x' hk
    refine ⟨nx, h1, ?_⟩
    rcases h2 with h2 | ⟨h2, p', b', h3, h4⟩
    · exact Or.inl h2
    · refine Or.inr ⟨h2, p', b', h3, ?_⟩
      have hpp : p' ≠ p := by
        rintro rfl
        rw [hp] at h4
        simp at h4
      simp only
      rw [Function.update_noteq hpp]
      exact h4
  · rintro (h | h)
    · exact absurd h hQ
    · exact absurd h (hnofp _ rfl)
  · intro _ _
    rw [List.head?_eq_getElem?, hi]
    rfl
  · intro p' nd' hp'
    obtain ⟨_, hp'⟩ := update_done_ne (by simp) hp'
    exact hI.exch p' nd' hp'
  · intro p' nd' old hp'
    obtain ⟨_, hp'⟩ := update_done_ne (by simp) hp'
    exact hI.link p' nd' old hp'
  · have hci := hI.cons
    unfold ConsInv at hci ⊢
    unfold FrontRead at hci
    cases hcs : s.cons with
    | check => simpa [hcs] using hci
    | callFront =>
      rw [hcs] at hci hstale
      exact absurd hstale hci.2
    | inPop pc =>
      rw [hcs] at hci hstale
      cases pc with
      | loadHead => exact absurd hstale hci.1
      | casTail q => exact absurd hstale hci.2.1
      | casHead q => exact hci
      | readNext q => exact absurd hstale hci.2.1.1
      | storeHead q n => exact absurd hstale hci.2.1.1
      | del q => exact hci
      | done => exact hci

/-- The store to `old_tail->next` of a push that found a node in `tail`. -/
theorem step_link_some {s : Sys T} {Q : List (Nat × T)} (hI : Inv s Q) (p : Nat) (nd : Ptr)
    (o : Nat) (hp : s.prod p = .link nd (some o)) :
    ∃ s' Q', sysStep s (.producer p) = .ok s' ∧ Inv s' Q' := by
  obtain ⟨b, x, i, hb, hi, hcase⟩ := hI.link p nd (some o) hp
  subst hb
  rcases hcase with ⟨_, hold⟩ | ⟨j, a', y, hij, hj, hold, hnode⟩
  · simp at hold
  simp only [Option.some.injEq] at hold
  subst hold hij
  have hoQ : o ∈ Q.map Prod.fst := getElem?_fst_mem hj
  refine ⟨{ s with mem := { s.mem with
                      heap := Function.update s.mem.heap o (some { item := y, next := some b }) },
                   prod := Function.update s.prod p .done }, Q,
    by simp [sysStep, hp, pushStep, set_next, hnode], ?_⟩
  refine ⟨hI.nodup, ?_, hI.tail, ?_, ?_, ?_, ?_, inj_update_done hI.inj, ?_, ?_⟩
  · intro k a' x' hk
    by_cases hao : a' = o
    · subst hao
      have hkj := nodup_index_unique hI.nodup hk hj
      subst hkj
      rw [hj] at hk
      simp only [Option.some.injEq, Prod.mk.injEq, true_and] at hk
      subst hk
      exact ⟨some b, by simp, Or.inl (by rw [hi]; rfl)⟩
    · obtain ⟨nx, h1, h2⟩ := hI.chain k a' x' hk
      refine ⟨nx, by simp only; rw [Function.update_noteq hao]; exact h1, ?_⟩
      rcases h2 with h2 | ⟨h2, p', b', h3, h4⟩
      · exact Or.inl h2
      · refine Or.inr ⟨h2, p', b', h3, ?_⟩
        have hpp : p' ≠ p := by
          rintro rfl
          rw [hp] at h4
          simp only [PushPc.link.injEq, Option.some.injEq] at h4
          exact hao h4.2.symm
        simp only
        rw [Function.update_noteq hpp]
        exact h4
  · rintro (h | ⟨p', b', hb'⟩)
    · exact hI.head_stale (Or.inl h)
    · obtain ⟨_, hb'⟩ := update_done_ne (by simp) hb'
      exact hI.head_stale (Or.inr ⟨p', b', hb'⟩)
  · intro hne hfp
    apply hI.head_first hne
    rintro ⟨p', b', hb'⟩
    apply hfp
    have hpp : p' ≠ p := by
      rintro rfl
      rw [hp] at hb'
      simp at hb'
    refine ⟨p', b', ?_⟩
    simp only
    rw [Function.update_noteq hpp]
    exact hb'
  · intro p' nd' hp'
    obtain ⟨_, hp'⟩ := update_done_ne (by simp) hp'
    obtain ⟨a2, x2, h1, h2, h3, h4⟩ := hI.exch p' nd' hp'
    have hao : a2 ≠ o := by
      rintro rfl
      exact h3 hoQ
    exact ⟨a2, x2, h1, by simp only; rw [Function.update_noteq hao]; exact h2, h3, h4⟩
  · intro p' nd' old hp'
    obtain ⟨hpp, hq⟩ := update_done_ne (by simp) hp'
    obtain ⟨b2, x2, i2, h1, h2, hcase2⟩ := hI.link p' nd' old hq
    refine ⟨b2, x2, i2, h1, h2, ?_⟩
    rcases hcase2 with h | ⟨j2, a2, y2, hij2, hj2, hold2, hnode2⟩
    · exact Or.inl h
    · refine Or.inr ⟨j2, a2, y2, hij2, hj2, hold2, ?_⟩
      have hao : a2 ≠ o := by
        rintro rfl
        have hjj := nodup_index_unique hI.nodup hj2 hj
        subst hjj hij2
        rw [hi] at h2
        simp only [Option.some.injEq, Prod.mk.injEq] at h2
        apply hpp
        apply hI.inj p' p b
        · rw [hq, PushPc.node, h1, h2.1]
        · rw [hp, PushPc.node]
      simp only
      rw [Function.update_noteq hao]
      exact hnode2
  · intro c hc
    obtain ⟨h1, h2⟩ := hI.detached c hc
    have hco : c ≠ o := by
      rintro rfl
      exact h2 hoQ
    exact ⟨by simp only; rw [Function.update_noteq hco]; exact h1, h2⟩
  · refine @ConsInv.transfer T s _ Q rfl rfl rfl rfl ?_ hI.cons
    intro a2 x2 n hn
    have hao : a2 ≠ o := by
      rintro rfl
      rw [hnode] at hn
      simp at hn
    simp only
    rw [Function.update_noteq hao]
    exact hn

theorem lt_of_getElem? {Q : List (Nat × T)} {i : Nat} {z : Nat × T} (h : Q[i]? = some z) :
    i < Q.length :=
  (List.getElem?_eq_some_iff.mp h).1

theorem getElem?_snoc_cases {Q : List (Nat × T)} {c z : Nat × T} {i : Nat}
    (h : (Q ++ [c])[i]? = some z) :
    (i < Q.length ∧ Q[i]? = some z) ∨ (i = Q.length ∧ z = c) := by
  by_cases hlt : i < Q.length
  · rw [List.getElem?_append_left hlt] at h
    exact Or.inl ⟨hlt, h⟩
  · have hle : Q.length ≤ i := Nat.le_of_not_lt hlt
    rw [List.getElem?_append_right hle] at h
    have hlt' := lt_of_getElem? h
    simp only [List.length_singleton, Nat.lt_one_iff] at hlt'
    have hi : i = Q.length := by omega
    subst hi
    simp only [Nat.sub_self, List.getElem?_cons_zero, Option.some.injEq] at h
    exact Or.inr ⟨rfl, h.symm⟩

theorem getElem?_snoc_of_some {Q : List (Nat × T)} {c z : Nat × T} {i : Nat}
    (h : Q[i]? = some z) : (Q ++ [c])[i]? = some z := by
  rw [List.getElem?_append_left (lt_of_getElem? h)]
  exact h

theorem getElem?_snoc_length (Q : List (Nat × T)) (c : Nat × T) :
    (Q ++ [c])[Q.length]? = some c := by
  rw [List.getElem?_append_right (le_refl _)]
  simp

/-- The exchange of `tail`: the node joins the queue. -/
theorem step_exchange {s : Sys T} {Q : List (Nat × T)} (hI : Inv s Q) (p : Nat) (nd : Ptr)
    (hp : s.prod p = .exchange nd) :
    ∃ s' Q', sysStep s (.producer p) = .ok s' ∧ Inv s' Q' := by
  obtain ⟨a, x, hnd, hnode, haQ, hdet⟩ := hI.exch p nd hp
  subst hnd
  have hother : ∀ {p' : Nat} {b : Nat} {old : Ptr},
      Function.update s.prod p (.link (some a) s.mem.tail) p' = .link (some b) old →
      b ≠ a → p' ≠ p ∧ s.prod p' = .link (some b) old := by
    intro p' b old h hba
    by_cases hpp : p' = p
    · subst hpp
      simp only [Function.update_same, PushPc.link.injEq, Option.some.injEq] at h
      exact absurd h.1.symm hba
    · rw [Function.update_noteq hpp] at h
      exact ⟨hpp, h⟩
  have hnode_eq : ∀ p', (Function.update s.prod p (.link (some a) s.mem.tail) p').node
      = (s.prod p').node := by
    intro p'
    by_cases hpp : p' = p
    · subst hpp
      simp [hp, PushPc.node]
    · rw [Function.update_noteq hpp]
  have hlast : ∀ {j : Nat}, Q.length = j + 1 →
      ∃ o y, Q[j]? = some (o, y) ∧ s.mem.tail = some o ∧
        s.mem.heap o = some { item := y, next := none } := by
    intro j hj
    have hjl : j < Q.length := by omega
    obtain ⟨⟨o, y⟩, hoy⟩ : ∃ z, Q[j]? = some z :=
      ⟨Q[j], List.getElem?_eq_some_iff.mpr ⟨hjl, rfl⟩⟩
    have hnone : Q[j + 1]? = none := List.getElem?_eq_none (by omega)
    obtain ⟨nx, h1, h2⟩ := hI.chain j o y hoy
    have hnx : nx = none := by
      rcases h2 with h2 | ⟨h2, _⟩
      · rw [h2, hnone]; rfl
      · exact h2
    subst hnx
    refine ⟨o, y, hoy, ?_, h1⟩
    rw [hI.tail, List.getLast?_eq_getElem?, hj, Nat.add_sub_cancel, hoy]
    rfl
  have htail_nil : s.mem.tail = none → Q = [] := by
    intro ht
    cases hl : Q.length with
    | zero => exact List.length_eq_zero.mp hl
    | succ j =>
      obtain ⟨o, y, _, h2, _⟩ := hlast hl
      rw [ht] at h2
      simp at h2
  refine ⟨{ s with mem := { s.mem with tail := some a },
                   prod := Function.update s.prod p (.link (some a) s.mem.tail),
                   pushed := s.pushed ++ [x] }, Q ++ [(a, x)],
    by simp [sysStep, hp, pushStep, itemAt, deref, hnode], ?_⟩
  refine ⟨?_, ?_, by simp, ?_, ?_, ?_, ?_, ?_, ?_, ?_⟩
  · rw [List.map_append, List.nodup_append]
    refine ⟨hI.nodup, by simp, ?_⟩
    intro b hb hb'
    simp only [List.map_cons, List.map_nil, List.mem_singleton] at hb'
    exact haQ (hb' ▸ hb)
  · intro i a' x' hi
    rcases getElem?_snoc_cases hi with ⟨hlt, hi'⟩ | ⟨hil, hz⟩
    · obtain ⟨nx, h1, h2⟩ := hI.chain i a' x' hi'
      refine ⟨nx, h1, ?_⟩
      by_cases hlt' : i + 1 < Q.length
      · rw [List.getElem?_append_left hlt']
        rcases h2 with h2 | ⟨h2, p', b', h3, h4⟩
        · exact Or.inl h2
        · refine Or.inr ⟨h2, p', b', h3, ?_⟩
          have hpp : p' ≠ p := by
            rintro rfl
            rw [hp] at h4
            simp at h4
          simp only
          rw [Function.update_noteq hpp]
          exact h4
      · have hlen : Q.length = i + 1 := by omega
        obtain ⟨o, y, hoy, hto, hno⟩ := hlast hlen
        rw [hi'] at hoy
        simp only [Option.some.injEq, Prod.mk.injEq] at hoy
        obtain ⟨rfl, rfl⟩ := hoy
        rw [h1] at hno
        simp only [Option.some.injEq, Node.mk.injEq, true_and] at hno
        refine Or.inr ⟨hno, p, a, ?_, ?_⟩
        · rw [← hlen, getElem?_snoc_length]
          rfl
        · simp [hto]
    · simp only [Prod.mk.injEq] at hz
      obtain ⟨rfl, rfl⟩ := hz
      refine ⟨none, hnode, Or.inl ?_⟩
      rw [hil, List.getElem?_eq_none (by simp)]
      rfl
  · rintro (h | ⟨p', b, hb⟩)
    · simp at h
    · simp only at hb
      by_cases hpp : p' = p
      · subst hpp
        simp only [Function.update_same, PushPc.link.injEq, Option.some.injEq] at hb
        exact hI.head_stale (Or.inl (htail_nil hb.2))
      · rw [Function.update_noteq hpp] at hb
        exact hI.head_stale (Or.inr ⟨p', b, hb⟩)
  · intro _ hfp
    have hQ : Q ≠ [] := by
      rintro rfl
      apply hfp
      refine ⟨p, a, ?_⟩
      have : s.mem.tail = none := by simpa using hI.tail
      simp [this]
    have hfp' : ¬ FirstPending s := by
      rintro ⟨p', b, hb⟩
      apply hfp
      have hpp : p' ≠ p := by
        rintro rfl
        rw [hp] at hb
        simp at hb
      refine ⟨p', b, ?_⟩
      simp only
      rw [Function.update_noteq hpp]
      exact hb
    have := hI.head_first hQ hfp'
    cases Q with
    | nil => exact absurd rfl hQ
    | cons c r => simpa using this
  · intro p' nd' hp'
    simp only at hp'
    have hpp : p' ≠ p := by
      rintro rfl
      simp at hp'
    rw [Function.update_noteq hpp] at hp'
    obtain ⟨a2, x2, h1, h2, h3, h4⟩ := hI.exch p' nd' hp'
    refine ⟨a2, x2, h1, h2, ?_, h4⟩
    rw [List.map_append, List.mem_append, not_or]
    refine ⟨h3, ?_⟩
    simp only [List.map_cons, List.map_nil, List.mem_singleton]
    rintro rfl
    apply hpp
    apply hI.inj p' p a2
    · rw [hp', PushPc.node, h1]
    · rw [hp, PushPc.node]
  · intro p' nd' old hp'
    simp only at hp'
    by_cases hpp : p' = p
    · subst hpp
      simp only [Function.update_same, PushPc.link.injEq] at hp'
      obtain ⟨rfl, rfl⟩ := hp'
      refine ⟨a, x, Q.length, rfl, getElem?_snoc_length Q (a, x), ?_⟩
      cases hl : Q.length with
      | zero =>
        left
        have hQ : Q = [] := List.length_eq_zero.mp hl
        subst hQ
        exact ⟨rfl, by simpa using hI.tail⟩
      | succ j =>
        right
        obtain ⟨o, y, hoy, hto, hno⟩ := hlast hl
        exact ⟨j, o, y, rfl, getElem?_snoc_of_some hoy, hto, hno⟩
    · rw [Function.update_noteq hpp] at hp'
      obtain ⟨b2, x2, i2, h1, h2, hcase2⟩ := hI.link p' nd' old hp'
      refine ⟨b2, x2, i2, h1, getElem?_snoc_of_some h2, ?_⟩
      rcases hcase2 with h | ⟨j2, a2, y2, hij2, hj2, hold2, hnode2⟩
      · exact Or.inl h
      · exact Or.inr ⟨j2, a2, y2, hij2, getElem?_snoc_of_some hj2, hold2, hnode2⟩
  · intro p1 p2 a1 h1 h2
    rw [hnode_eq] at h1 h2
    exact hI.inj p1 p2 a1 h1 h2
  · intro c hc
    obtain ⟨h1, h2⟩ := hI.detached c hc
    refine ⟨h1, ?_⟩
    rw [List.map_append, List.mem_append, not_or]
    refine ⟨h2, ?_⟩
    simp only [List.map_cons, List.map_nil, List.mem_singleton]
    rintro rfl
    exact hdet hc
  · have hci := hI.cons
    have hfr : FrontRead s Q → FrontRead
        { s with mem := { s.mem with tail := some a },
                 prod := Function.update s.prod p (.link (some a) s.mem.tail),
                 pushed := s.pushed ++ [x] } (Q ++ [(a, x)]) := by
      rintro ⟨h1, pp, x', h2, h3, h4⟩
      refine ⟨h1, pp, x', h2, ?_, ?_⟩
      · cases Q with
        | nil => simp at h3
        | cons c r => simpa using h3
      · simp only [List.map_append, List.map_cons, List.map_nil]
        rw [← List.append_assoc, h4]
    unfold ConsInv at hci ⊢
    cases hcs : s.cons with
    | check =>
      rw [hcs] at hci
      simp only [List.map_append, List.map_cons, List.map_nil]
      rw [← List.append_assoc, hci]
    | callFront =>
      rw [hcs] at hci
      simp only [List.map_append, List.map_cons, List.map_nil]
      rw [← List.append_assoc, hci.1]
      exact ⟨rfl, hci.2⟩
    | inPop pc =>
      rw [hcs] at hci
      cases pc with
      | loadHead => exact hfr hci
      | casTail q => exact ⟨hci.1, hfr hci.2⟩
      | casHead q =>
        simp only [List.map_append, List.map_cons, List.map_nil]
        rw [← List.append_assoc, hci.2]
        exact ⟨hci.1, rfl⟩
      | readNext q =>
        refine ⟨hci.1, hfr hci.2.1, ?_⟩
        rw [List.length_append]
        exact Nat.le_add_right_of_le hci.2.2
      | storeHead q n =>
        obtain ⟨h1, h2, a2, x2, h3, h4, h5⟩ := hci
        refine ⟨h1, hfr h2, a2, x2, getElem?_snoc_of_some h3, ?_, h5⟩
        cases h6 : Q[1]? with
        | none => simp [h6] at h4
        | some z =>
          rw [getElem?_snoc_of_some h6]
          rw [h6] at h4
          exact h4
      | del q =>
        simp only [List.map_append, List.map_cons, List.map_nil]
        rw [← List.append_assoc, hci.2]
        exact ⟨hci.1, rfl⟩
      | done => exact hci

theorem step_producer {s : Sys T} {Q : List (Nat × T)} (hI : Inv s Q) (p : Nat) :
    ∃ s' Q', sysStep s (.producer p) = .ok s' ∧ Inv s' Q' := by
  cases hp : s.prod p with
  | done => exact step_idle hI p hp
  | exchange nd => exact step_exchange hI p nd hp
  | link nd old =>
    cases old with
    | none => exact step_link_none hI p nd hp
    | some o => exact step_link_some hI p nd o hp

/-- Every step of the system is free of faults and keeps the invariant. -/
theorem Inv.sys_step {s : Sys T} {Q : List (Nat × T)} (hI : Inv s Q) (act : Action T) :
    ∃ s' Q', sysStep s act = .ok s' ∧ Inv s' Q' := by
  cases act with
  | consumer => exact step_consumer hI
  | call p a x => exact step_call hI p a x
  | producer p => exact step_producer hI p

theorem Inv.sys_run : ∀ (acts : List (Action T)) {s : Sys T} {Q : List (Nat × T)}, Inv s Q →
    ∃ s' Q', sysRun acts s = .ok s' ∧ Inv s' Q'
  | [], s, Q, hI => ⟨s, Q, rfl, hI⟩
  | act :: acts, s, Q, hI => by
    obtain ⟨s1, Q1, h1, hI1⟩ := hI.sys_step act
    obtain ⟨s2, Q2, h2, hI2⟩ := Inv.sys_run acts hI1
    exact ⟨s2, Q2, by simp only [sysRun, h1, h2], hI2⟩

/-- A schedule in which two producers race and the consumer drains the queue: it ends
quiescent with both items obtained in the order of the exchanges. -/
theorem concurrent_example :
    ∃ s, sysRun [.call 0 0 10, .producer 0, .call 1 1 20, .producer 1, .producer 1,
          .consumer, .producer 0, .consumer, .consumer, .consumer, .consumer, .consumer,
          .consumer, .consumer, .consumer, .consumer, .consumer, .consumer, .consumer, .consumer]
        (Sys.init emptyHeap) = .ok s ∧
      s.Quiescent ∧ s.pushed = [10, 20] ∧ s.popped = [10, 20] := by
  simp [sysRun, sysStep, pushStep, popStep, front, has_front, deref, get_next, set_next,
    delete, itemAt, Sys.init, new, emptyHeap, Sys.Quiescent, Function.update_apply]
  intro p h0 _
  exact h0

end Many

/-! ## Behaviour of the individual atomic steps -/

section Steps

variable {T : Type}

/-- While `pop` waits, the node it waits for is the first of at least two nodes of the queue. -/
theorem readNext_cons {s : Sys T} {Q : List (Nat × T)} (hI : Inv s Q) {p : Ptr}
    (hc : s.cons = .inPop (.readNext p)) :
    ∃ a x b y rest, Q = (a, x) :: (b, y) :: rest ∧ p = some a := by
  have hci := hI.cons
  simp only [ConsInv, hc] at hci
  obtain ⟨hp, hfr, hlen⟩ := hci
  obtain ⟨a, x, rest, pp, rfl, hha, _, _, _⟩ :=
    frontRead_cons hI (by simp [hc, ConsPc.stale]) hfr
  cases rest with
  | nil => simp at hlen
  | cons c r =>
    obtain ⟨b, y⟩ := c
    exact ⟨a, x, b, y, r, rfl, by rw [hp, hha]⟩

/-- An absent `next` of a node that has a successor in the queue is owed by a push that is
between its exchange and its link store. -/
theorem absent_next_in_flight {s : Sys T} {Q : List (Nat × T)} (hI : Inv s Q) {a b : Nat}
    {x y : T} {rest : List (Nat × T)} (hQ : Q = (a, x) :: (b, y) :: rest)
    (hn : get_next s.mem.heap (some a) = .ok none) :
    ∃ t, s.prod t = .link (some b) (some a) := by
  subst hQ
  obtain ⟨nx, h1, h2⟩ := hI.chain 0 a x (by simp)
  simp only [get_next, deref, h1, Except.ok.injEq] at hn
  subst hn
  rcases h2 with h2 | ⟨_, t, b', h3, h4⟩
  · simp at h2
  · simp only [Nat.zero_add, List.getElem?_cons_succ, List.getElem?_cons_zero, Option.map_some',
      Option.some.injEq] at h3
    subst h3
    exact ⟨t, h4⟩

/-- C11: `pop` spins only on an in-flight push.  In every state the system reaches, when the
consumer is at the read of `popped->next` after a failed compare-and-swap of `tail` and that
read finds `next` absent (so that the wait loop goes round once more), some push has
exchanged `tail` away from `popped` and not yet stored its link.  Consequently, in every
state reached by completed pushes and pops that holds at least one item, `pop()` returns
without executing the body of the wait loop (a bound of zero iterations suffices; the call
takes at most five atomic steps), and afterwards `head` is the second node of the chain
(absent when there was only one). -/
theorem C11_pop_spins_only_on_push (h : Heap T) (acts : List (Action T))
    (tr : List (Op T)) (q : State T) (hr : Reach tr q) (hne : has_front q = true) :
    (∃ s, sysRun acts (Sys.init h) = .ok s ∧
      ∀ p, s.cons = .inPop (.readNext p) → get_next s.mem.heap p = .ok none →
        ∃ t b, s.prod t = .link (some b) p) ∧
    (∃ (chain : List (Nat × T)) (q' : State T),
      walk q.heap chain.length q.head = .ok chain ∧ chain ≠ [] ∧
      pop 0 q = .ok q' ∧ (∃ n, n ≤ 5 ∧ popRun n q .loadHead = .ok (q', .done)) ∧
      q'.head = chain[1]?.map Prod.fst) := by
  constructor
  · obtain ⟨s, Q, hrun, hI⟩ := Inv.sys_run acts (Inv.init h)
    refine ⟨s, hrun, ?_⟩
    intro p hc hn
    obtain ⟨a, x, b, y, rest, hQ, rfl⟩ := readNext_cons hI hc
    obtain ⟨t, ht⟩ := absent_next_in_flight hI hQ hn
    exact ⟨t, b, ht⟩
  · obtain ⟨chain, hq, _, _⟩ := hr.holds
    have hf := has_front_holds hq
    rw [hne] at hf
    cases chain with
    | nil => simp at hf
    | cons c rest =>
      obtain ⟨a, x⟩ := c
      obtain ⟨q', hp, hq', _, _⟩ := pop_holds hq 0
      refine ⟨(a, x) :: rest, q', ?_, by simp, hp, pop_is_popRun 0 q q' hp, ?_⟩
      · rw [hq.2.2.1]
        exact walk_linked _ _ hq.2.1 (le_refl _)
      · rw [hq'.2.2.1, List.head?_eq_getElem?]
        simp

theorem C11_pop_spins_only_on_push_witness :
    Reach [Op.push 0 7, Op.push 1 9] twoItems ∧ has_front twoItems = true ∧
    ((∃ s, sysRun [.call 0 0 10, .producer 0, .producer 0, .consumer, .consumer, .consumer,
          .call 1 1 20, .producer 1, .consumer, .consumer] (Sys.init emptyHeap) = .ok s ∧
      ∀ p, s.cons = .inPop (.readNext p) → get_next s.mem.heap p = .ok none →
        ∃ t b, s.prod t = .link (some b) p) ∧
    (∃ (chain : List (Nat × Nat)) (q' : State Nat),
      walk twoItems.heap chain.length twoItems.head = .ok chain ∧ chain ≠ [] ∧
      pop 0 twoItems = .ok q' ∧
      (∃ n, n ≤ 5 ∧ popRun n twoItems .loadHead = .ok (q', .done)) ∧
      q'.head = chain[1]?.map Prod.fst)) :=
  ⟨reach_twoItems, rfl,
    C11_pop_spins_only_on_push emptyHeap
      [.call 0 0 10, .producer 0, .producer 0, .consumer, .consumer, .consumer,
        .call 1 1 20, .producer 1, .consumer, .consumer]
      [Op.push 0 7, Op.push 1 9] twoItems reach_twoItems rfl⟩

/-- A run in which the wait loop of `pop` does go round: the consumer is at the read of
`popped->next`, finds it absent, and producer `1` is between its exchange and its link. -/
theorem spin_example :
    ∃ s, sysRun [.call 0 0 10, .producer 0, .producer 0, .consumer, .consumer, .consumer,
          .call 1 1 20, .producer 1, .consumer, .consumer] (Sys.init emptyHeap) = .ok s ∧
      s.cons = .inPop (.readNext (some 0)) ∧ get_next s.mem.heap (some 0) = .ok none ∧
      s.prod 1 = .link (some 1) (some 0) := by
  simp [sysRun, sysStep, pushStep, popStep, front, has_front, deref, get_next, set_next,
    delete, itemAt, Sys.init, new, emptyHeap, Function.update_apply]

/-- C12 fails as stated: `push(7)` on the freshly constructed (empty) queue changes `head`
from absent to the new node. -/
theorem C12_counterexample :
    push (new emptyHeap) 7 (some 0) = .ok (.returned, oneItem) ∧
    (new emptyHeap).head = none ∧ oneItem.head = some 0 :=
  ⟨rfl, rfl, rfl⟩

/-- C12, amended: for every queue state and item, a `push` that finds `tail` present leaves
`head` exactly as it was, and so does a `push` whose `new` expression throws; a `push` that
finds `tail` absent stores the new node into `head`.  Step by step: the exchange and the
store to `old_tail->next` never change `head`, the store of a push whose exchange returned
null sets `head` to the node; every other change of `head` is made by a step of `pop`. -/
theorem C12_push_head (q : State T) (x : T) :
    (∀ (fresh : Option Nat) (c : Completion) (q' : State T),
      q.tail ≠ none → push q x fresh = .ok (c, q') → q'.head = q.head) ∧
    (∀ q' : State T, push q x none = .ok (.threw_bad_alloc, q') → q'.head = q.head) ∧
    (∀ a : Nat, q.tail = none →
      ∃ q', push q x (some a) = .ok (.returned, q') ∧ q'.head = some a) ∧
    (∀ (node : Ptr) (q' : State T) (pc' : PushPc),
      pushStep q (.exchange node) = .ok (q', pc') → q'.head = q.head) ∧
    (∀ (node : Ptr) (o : Nat) (q' : State T) (pc' : PushPc),
      pushStep q (.link node (some o)) = .ok (q', pc') → q'.head = q.head) ∧
    (∀ node : Ptr, pushStep q (.link node none) = .ok ({ q with head := node }, .done)) := by
  refine ⟨?_, ?_, ?_, ?_, ?_, fun _ => rfl⟩
  · intro fresh c q' ht hp
    cases fresh with
    | none =>
      simp only [push, Except.ok.injEq, Prod.mk.injEq] at hp
      rw [← hp.2]
    | some a =>
      obtain ⟨o, ho⟩ := Option.ne_none_iff_exists'.mp ht
      simp only [push, pushNode, ho] at hp
      split at hp
      · simp at hp
      · rename_i q'' hq''
        split at hq''
        · simp at hq''
        · simp only [Except.ok.injEq] at hq''
          simp only [Except.ok.injEq, Prod.mk.injEq] at hp
          rw [← hp.2, ← hq'']
  · intro q' hp
    simp only [push, Except.ok.injEq, Prod.mk.injEq, true_and] at hp
    rw [← hp]
  · intro a ht
    exact ⟨{ heap := Function.update q.heap a (some { item := x, next := none }),
             head := some a, tail := some a }, by simp only [push, pushNode, ht], rfl⟩
  · intro node q' pc' hp
    simp only [pushStep, Except.ok.injEq, Prod.mk.injEq] at hp
    rw [← hp.1]
  · intro node o q' pc' hp
    simp only [pushStep] at hp
    split at hp
    · simp at hp
    · simp only [Except.ok.injEq, Prod.mk.injEq] at hp
      rw [← hp.1]

/-- C13 fails as stated: after the tail exchange of a push on the empty queue `tail` is
present while `head` is still absent, and between the two compare-and-swaps of a `pop` of
the last node `head` is present while `tail` is absent. -/
theorem C13_counterexample :
    (∃ s, sysRun [.call 0 0 10, .producer 0] (Sys.init emptyHeap) = .ok s ∧
      s.mem.head = none ∧ s.mem.tail = some 0) ∧
    (∃ s, sysRun [.call 0 0 10, .producer 0, .producer 0, .consumer, .consumer, .consumer,
          .consumer] (Sys.init emptyHeap) = .ok s ∧
      s.mem.head = some 0 ∧ s.mem.tail = none) := by
  constructor <;>
    simp [sysRun, sysStep, pushStep, popStep, front, has_front, deref, get_next, set_next,
      delete, itemAt, Sys.init, new, emptyHeap, Function.update_apply]

theorem Inv.tail_none_iff {s : Sys T} {Q : List (Nat × T)} (hI : Inv s Q) :
    s.mem.tail = none ↔ Q = [] := by
  rw [hI.tail]
  rcases List.eq_nil_or_concat Q with rfl | ⟨init, c, hc⟩
  · simp
  · rw [List.concat_eq_append] at hc
    subst hc
    simp

/-- C13, amended: in every state the system reaches by atomic steps, `head` is absent if and
only if `tail` is absent, provided that no push is between a tail exchange that returned
null and its store to `head`, and that `pop` is not between its two compare-and-swaps.
While a push is between such an exchange and its store to `head`, `tail` is present, and
`head` is absent unless `pop` is between its two compare-and-swaps.  While `pop` is between
its two compare-and-swaps `head` is present. -/
theorem C13_head_tail (h : Heap T) (acts : List (Action T)) :
    ∃ s, sysRun acts (Sys.init h) = .ok s ∧
      ((∀ t nd, s.prod t ≠ .link nd none) → (∀ p, s.cons ≠ .inPop (.casHead p)) →
        (s.mem.head = none ↔ s.mem.tail = none)) ∧
      ((∃ t nd, s.prod t = .link nd none) → s.mem.tail ≠ none) ∧
      ((∃ t nd, s.prod t = .link nd none) → (∀ p, s.cons ≠ .inPop (.casHead p)) →
        s.mem.head = none) ∧
      (∀ p, s.cons = .inPop (.casHead p) → s.mem.head ≠ none) := by
  obtain ⟨s, Q, hrun, hI⟩ := Inv.sys_run acts (Inv.init h)
  have hstale : (∀ p, s.cons ≠ .inPop (.casHead p)) → s.cons.stale = none := by
    intro hc
    cases hcs : s.cons with
    | check => rfl
    | callFront => rfl
    | inPop pc =>
      cases pc with
      | casHead p => exact absurd hcs (hc p)
      | _ => rfl
  refine ⟨s, hrun, ?_, ?_, ?_, ?_⟩
  · intro hfp hc
    have hnfp : ¬ FirstPending s := fun ⟨t, b, hb⟩ => hfp t (some b) hb
    rw [hI.tail_none_iff]
    constructor
    · intro hh
      by_contra hne
      have := hI.head_first hne hnfp
      rw [hh] at this
      cases Q with
      | nil => exact hne rfl
      | cons c r => simp at this
    · intro hQ
      rw [hI.head_stale (Or.inl hQ), hstale hc]
  · rintro ⟨t, nd, ht⟩
    obtain ⟨b, x, i, _, hi, _⟩ := hI.link t nd none ht
    rw [Ne, hI.tail_none_iff]
    rintro rfl
    simp at hi
  · rintro ⟨t, nd, ht⟩ hc
    obtain ⟨b, x, i, hb, _, _⟩ := hI.link t nd none ht
    subst hb
    rw [hI.head_stale (Or.inr ⟨t, b, ht⟩), hstale hc]
  · intro p hc
    have hci := hI.cons
    simp only [ConsInv, hc] at hci
    obtain ⟨⟨c, rfl⟩, _⟩ := hci
    by_cases hst : Q = [] ∨ FirstPending s
    · rw [hI.head_stale hst, hc]
      simp [ConsPc.stale]
    · push_neg at hst
      rw [hI.head_first hst.1 hst.2]
      cases Q with
      | nil => exact absurd rfl hst.1
      | cons z r => simp

/-- A run in which both hand-offs overlap: `pop` is between its two compare-and-swaps and a
push is between its exchange (which returned null) and its store to `head`; `head` is still
the popped node and `tail` is the new node. -/
theorem overlap_example :
    ∃ s, sysRun [.call 0 0 10, .producer 0, .producer 0, .consumer, .consumer, .consumer,
          .consumer, .call 1 1 20, .producer 1] (Sys.init emptyHeap) = .ok s ∧
      s.cons = .inPop (.casHead (some 0)) ∧ s.prod 1 = .link (some 1) none ∧
      s.mem.head = some 0 ∧ s.mem.tail = some 1 := by
  simp [sysRun, sysStep, pushStep, popStep, front, has_front, deref, get_next, set_next,
    delete, itemAt, Sys.init, new, emptyHeap, Function.update_apply]

theorem popStep_heap {q q' : State T} {pc pc' : PopPc} (hp : popStep q pc = .ok (q', pc')) :
    ∀ a, q'.heap a = q.heap a ∨ q'.heap a = none := by
  intro a
  cases pc with
  | loadHead =>
    simp only [popStep, Except.ok.injEq, Prod.mk.injEq] at hp
    rw [← hp.1]; exact Or.inl rfl
  | casTail p =>
    simp only [popStep] at hp
    split at hp <;> simp only [Except.ok.injEq, Prod.mk.injEq] at hp <;> rw [← hp.1] <;>
      exact Or.inl rfl
  | casHead p =>
    simp only [popStep] at hp
    split at hp <;> simp only [Except.ok.injEq, Prod.mk.injEq] at hp <;> rw [← hp.1] <;>
      exact Or.inl rfl
  | readNext p =>
    simp only [popStep] at hp
    split at hp
    · simp at hp
    · simp only [Except.ok.injEq, Prod.mk.injEq] at hp
      rw [← hp.1]; exact Or.inl rfl
    · simp only [Except.ok.injEq, Prod.mk.injEq] at hp
      rw [← hp.1]; exact Or.inl rfl
  | storeHead p n =>
    simp only [popStep, Except.ok.injEq, Prod.mk.injEq] at hp
    rw [← hp.1]; exact Or.inl rfl
  | del p =>
    simp only [popStep] at hp
    split at hp
    · simp at hp
    · rename_i h' hd
      simp only [Except.ok.injEq, Prod.mk.injEq] at hp
      rw [← hp.1]
      cases p with
      | none =>
        simp only [delete, Except.ok.injEq] at hd
        rw [← hd]; exact Or.inl rfl
      | some c =>
        simp only [delete] at hd
        split at hd
        · simp at hd
        · simp only [Except.ok.injEq] at hd
          rw [← hd]
          by_cases hac : a = c
          · subst hac
            exact Or.inr (by simp)
          · exact Or.inl (by simp [Function.update_noteq hac])
  | done =>
    simp only [popStep, Except.ok.injEq, Prod.mk.injEq] at hp
    rw [← hp.1]; exact Or.inl rfl

/-- No step of the consumer writes a `next` field: it leaves every node as it is or
destroys it. -/
theorem consumer_heap {s s' : Sys T} (hs : sysStep s .consumer = .ok s') :
    ∀ a, s'.mem.heap a = s.mem.heap a ∨ s'.mem.heap a = none := by
  intro a
  simp only [sysStep] at hs
  split at hs
  · split at hs <;> simp only [Except.ok.injEq] at hs <;> rw [← hs] <;> exact Or.inl rfl
  · split at hs
    · simp at hs
    · simp only [Except.ok.injEq] at hs
      rw [← hs]; exact Or.inl rfl
  · split at hs
    · simp at hs
    · rename_i m pc' hp
      simp only [Except.ok.injEq] at hs
      rw [← hs]
      exact popStep_heap hp a

/-- C14: write-once `next` links.  Take any state the system reaches by atomic steps of any
number of producers and the consumer, and any next step.  A node that is alive before the
step is afterwards unchanged, or destroyed by the consumer, or its `next` was absent and
has been set (to a node) by the link store of the push whose tail exchange returned that
node, its item unchanged; so a `next` that is present is never written again.  A node that
comes into being is created by `new Node(x)` with `next` absent.  The consumer (`pop`,
`front`, `operator bool`) never writes a `next` field; `size` is a function of the state. -/
theorem C14_next_write_once (h : Heap T) (acts : List (Action T)) (act : Action T) :
    ∃ s s', sysRun acts (Sys.init h) = .ok s ∧ sysStep s act = .ok s' ∧
      (∀ a n, s.mem.heap a = some n →
        s'.mem.heap a = some n ∨ (act = .consumer ∧ s'.mem.heap a = none) ∨
        (n.next = none ∧ ∃ t b, act = .producer t ∧ s.prod t = .link (some b) (some a) ∧
          s'.mem.heap a = some { item := n.item, next := some b })) ∧
      (∀ a, s.mem.heap a = none →
        s'.mem.heap a = none ∨
        ∃ t x, act = .call t a x ∧ s'.mem.heap a = some { item := x, next := none }) ∧
      (act = .consumer → ∀ a, s'.mem.heap a = s.mem.heap a ∨ s'.mem.heap a = none) := by
  obtain ⟨s, Q, hrun, hI⟩ := Inv.sys_run acts (Inv.init h)
  obtain ⟨s', _, hstep, _⟩ := hI.sys_step act
  refine ⟨s, s', hrun, hstep, ?_, ?_, ?_⟩
  · intro a n ha
    cases act with
    | consumer =>
      rcases consumer_heap hstep a with h1 | h1
      · exact Or.inl (by rw [h1, ha])
      · exact Or.inr (Or.inl ⟨rfl, h1⟩)
    | call t b x =>
      left
      simp only [sysStep] at hstep
      split at hstep
      · rename_i hen
        simp only [Except.ok.injEq] at hstep
        rw [← hstep]
        have hba : a ≠ b := by
          rintro rfl
          simp [ha] at hen
        simp [Function.update_noteq hba, ha]
      · simp only [Except.ok.injEq] at hstep
        rw [← hstep, ha]
    | producer t =>
      cases hp : s.prod t with
      | done =>
        left
        simp only [sysStep, hp, pushStep, Except.ok.injEq] at hstep
        rw [← hstep, ha]
      | exchange nd =>
        left
        simp only [sysStep, hp, pushStep, Except.ok.injEq] at hstep
        rw [← hstep, ha]
      | link nd old =>
        obtain ⟨b, x, i, hb, hi, hcase⟩ := hI.link t nd old hp
        subst hb
        rcases hcase with ⟨_, rfl⟩ | ⟨j, o, y, _, _, rfl, hnode⟩
        · left
          simp only [sysStep, hp, pushStep, Except.ok.injEq] at hstep
          rw [← hstep, ha]
        · simp only [sysStep, hp, pushStep, set_next, hnode, Except.ok.injEq] at hstep
          rw [← hstep]
          by_cases hao : a = o
          · subst hao
            rw [hnode] at ha
            simp only [Option.some.injEq] at ha
            subst ha
            exact Or.inr (Or.inr ⟨rfl, t, b, rfl, hp, by simp⟩)
          · exact Or.inl (by simp [Function.update_noteq hao, ha])
  · intro a ha
    cases act with
    | consumer =>
      left
      rcases consumer_heap hstep a with h1 | h1
      · rw [h1, ha]
      · exact h1
    | call t b x =>
      simp only [sysStep] at hstep
      split at hstep
      · simp only [Except.ok.injEq] at hstep
        rw [← hstep]
        by_cases hab : a = b
        · subst hab
          exact Or.inr ⟨t, x, rfl, by simp⟩
        · exact Or.inl (by simp [Function.update_noteq hab, ha])
      · simp only [Except.ok.injEq] at hstep
        rw [← hstep]
        exact Or.inl ha
    | producer t =>
      left
      cases hp : s.prod t with
      | done =>
        simp only [sysStep, hp, pushStep, Except.ok.injEq] at hstep
        rw [← hstep, ha]
      | exchange nd =>
        simp only [sysStep, hp, pushStep, Except.ok.injEq] at hstep
        rw [← hstep, ha]
      | link nd old =>
        obtain ⟨b, x, i, hb, hi, hcase⟩ := hI.link t nd old hp
        subst hb
        rcases hcase with ⟨_, rfl⟩ | ⟨j, o, y, _, _, rfl, hnode⟩
        · simp only [sysStep, hp, pushStep, Except.ok.injEq] at hstep
          rw [← hstep, ha]
        · simp only [sysStep, hp, pushStep, set_next, hnode, Except.ok.injEq] at hstep
          rw [← hstep]
          have hao : a ≠ o := by
            rintro rfl
            rw [ha] at hnode
            simp at hnode
          simp [Function.update_noteq hao, ha]
  · intro hact
    subst hact
    exact consumer_heap hstep

/-- C15: `push(Node*)` is wait-free with a constant number of steps.  For every queue state
and node, the call consists of exactly two atomic operations and no loop.  The first is the
exchange on `tail`, which changes nothing else and remembers the old `tail`.  The second is
one store: to `head` (and nothing else) when the exchanged-out `tail` is null, to
`old_tail->next` (and nothing else) when it is a node.  After one step the call has not
returned, after two it has; run on its own the two steps are the whole call.  In every
state the system reaches, a producer that is in a call takes its next step without fault,
whatever the other threads have done in between, and no step of another thread moves
it. -/
theorem C15_push_two_steps (q : State T) (node : Ptr) (h : Heap T) (acts : List (Action T))
    (t : Nat) :
    pushStep q (.exchange node) = .ok ({ q with tail := node }, .link node q.tail) ∧
    (∀ q1 : State T,
      pushStep q1 (.link node none) = .ok ({ q1 with head := node }, .done)) ∧
    (∀ (q1 : State T) (o : Nat) (n : Node T), q1.heap o = some n →
      pushStep q1 (.link node (some o))
        = .ok ({ q1 with heap := Function.update q1.heap o (some { n with next := node }) },
            .done)) ∧
    (∀ r, pushRun 1 q (.exchange node) = .ok r → r.2 ≠ .done) ∧
    pushRun 2 q (.exchange node) = (pushNode q node).map (fun q' => (q', PushPc.done)) ∧
    (∃ s, sysRun acts (Sys.init h) = .ok s ∧
      (∀ nd, s.prod t = .exchange nd →
        ∃ s', sysStep s (.producer t) = .ok s' ∧ s'.prod t = .link nd s.mem.tail ∧
          s'.mem = { s.mem with tail := nd }) ∧
      (∀ nd, s.prod t = .link nd none →
        ∃ s', sysStep s (.producer t) = .ok s' ∧ s'.prod t = .done ∧
          s'.mem = { s.mem with head := nd }) ∧
      (∀ nd o, s.prod t = .link nd (some o) →
        ∃ s' n, s.mem.heap o = some n ∧ sysStep s (.producer t) = .ok s' ∧
          s'.prod t = .done ∧
          s'.mem = { s.mem with
            heap := Function.update s.mem.heap o (some { n with next := nd }) }) ∧
      (∀ (act : Action T) (s' : Sys T), act ≠ .producer t → s.prod t ≠ .done →
        sysStep s act = .ok s' → s'.prod t = s.prod t)) := by
  refine ⟨rfl, fun _ => rfl, ?_, ?_, pushNode_is_pushRun q node, ?_⟩
  · intro q1 o n hn
    simp [pushStep, set_next, hn]
  · intro r hr
    simp only [pushRun, pushStep, Except.ok.injEq] at hr
    rw [← hr]
    simp
  · obtain ⟨s, Q, hrun, hI⟩ := Inv.sys_run acts (Inv.init h)
    refine ⟨s, hrun, ?_, ?_, ?_, ?_⟩
    · intro nd hp
      exact ⟨{ s with mem := { s.mem with tail := nd },
                      prod := Function.update s.prod t (.link nd s.mem.tail),
                      pushed := s.pushed ++ itemAt s.mem.heap nd },
        by simp only [sysStep, hp, pushStep], by simp, rfl⟩
    · intro nd hp
      exact ⟨{ s with mem := { s.mem with head := nd },
                      prod := Function.update s.prod t .done },
        by simp [sysStep, hp, pushStep], by simp, rfl⟩
    · intro nd o hp
      obtain ⟨b, x, i, hb, hi, hcase⟩ := hI.link t nd (some o) hp
      rcases hcase with ⟨_, hold⟩ | ⟨j, o', y, _, _, hold, hnode⟩
      · simp at hold
      · simp only [Option.some.injEq] at hold
        subst hold
        exact ⟨{ s with
            mem := { s.mem with
              heap := Function.update s.mem.heap o (some { item := y, next := nd }) },
            prod := Function.update s.prod t .done }, _, hnode,
          by simp [sysStep, hp, pushStep, set_next, hnode], by simp, rfl⟩
    · intro act s' hact hnd hstep
      cases act with
      | consumer =>
        simp only [sysStep] at hstep
        split at hstep
        · split at hstep <;> simp only [Except.ok.injEq] at hstep <;> rw [← hstep]
        · split at hstep
          · simp at hstep
          · simp only [Except.ok.injEq] at hstep
            rw [← hstep]
        · split at hstep
          · simp at hstep
          · simp only [Except.ok.injEq] at hstep
            rw [← hstep]
      | call t' a x =>
        simp only [sysStep] at hstep
        split at hstep
        · rename_i hen
          simp only [Except.ok.injEq] at hstep
          rw [← hstep]
          have htt : t ≠ t' := by
            rintro rfl
            exact hnd hen.1
          simp [Function.update_noteq htt]
        · simp only [Except.ok.injEq] at hstep
          rw [← hstep]
      | producer t' =>
        have htt : t ≠ t' := by
          rintro rfl
          exact hact rfl
        simp only [sysStep] at hstep
        split at hstep
        · simp at hstep
        · simp only [Except.ok.injEq] at hstep
          rw [← hstep]
          simp [Function.update_noteq htt]

/-- C16 fails as stated: after two completed pushes no push is in flight, and yet the
compare-and-swap of `tail` in the `pop` of the first node fails (the consumer goes on to
read `popped->next`), because `tail` is the second node. -/
theorem C16_counterexample :
    ∃ s s', sysRun [.call 0 0 10, .producer 0, .producer 0, .call 0 1 20, .producer 0,
          .producer 0, .consumer, .consumer, .consumer] (Sys.init emptyHeap) = .ok s ∧
      s.cons = .inPop (.casTail (some 0)) ∧ (∀ t, s.prod t = .done) ∧
      s.mem.tail = some 1 ∧
      sysStep s .consumer = .ok s' ∧ s'.cons = .inPop (.readNext (some 0)) ∧
      s'.mem.tail = some 1 := by
  simp [sysRun, sysStep, pushStep, popStep, front, has_front, deref, get_next, set_next,
    delete, itemAt, Sys.init, new, emptyHeap, Function.update_apply]

/-- C16, amended: in every state the system reaches in which `pop` is about to
compare-and-swap `tail` from `popped` to null, the compare-and-swap succeeds exactly when
`tail` is `popped`, that is when `popped` is the last node.  When it fails, some push has
exchanged `tail` away from `popped`: either that push has already stored its link
(`popped->next` is present; no push need be in flight) or it is between its exchange and
its link store (`popped->next` is absent).  When it succeeds, no push is between its
exchange and its store. -/
theorem C16_tail_cas (h : Heap T) (acts : List (Action T)) :
    ∃ s, sysRun acts (Sys.init h) = .ok s ∧
      ∀ p, s.cons = .inPop (.casTail p) →
        (s.mem.tail = p →
          (∃ s', sysStep s .consumer = .ok s' ∧ s'.cons = .inPop (.casHead p) ∧
            s'.mem.tail = none) ∧
          (∀ t nd old, s.prod t ≠ .link nd old) ∧ get_next s.mem.heap p = .ok none) ∧
        (s.mem.tail ≠ p →
          (∃ s', sysStep s .consumer = .ok s' ∧ s'.cons = .inPop (.readNext p) ∧
            s'.mem.tail = s.mem.tail) ∧
          ((∃ b, get_next s.mem.heap p = .ok (some b)) ∨
            (get_next s.mem.heap p = .ok none ∧ ∃ t b, s.prod t = .link (some b) p))) := by
  obtain ⟨s, Q, hrun, hI⟩ := Inv.sys_run acts (Inv.init h)
  refine ⟨s, hrun, ?_⟩
  intro p hc
  have hci := hI.cons
  simp only [ConsInv, hc] at hci
  obtain ⟨hp, hfr⟩ := hci
  obtain ⟨a, x, rest, pp, rfl, hha, hfp, _, _⟩ :=
    frontRead_cons hI (by simp [hc, ConsPc.stale]) hfr
  rw [hha] at hp
  subst hp
  obtain ⟨nx, hnode, hnx⟩ := hI.chain 0 a x (by simp)
  constructor
  · intro ht
    have hrest : rest = [] := last_eq_first hI.nodup (by rw [← hI.tail, ht])
    subst hrest
    refine ⟨⟨{ s with mem := { s.mem with tail := none },
                      cons := .inPop (.casHead (some a)) },
      by simp [sysStep, hc, popStep, ht], rfl, rfl⟩, ?_, ?_⟩
    · intro t nd old hp'
      obtain ⟨b, x', i, hb, hi, hcase⟩ := hI.link t nd old hp'
      rcases hcase with ⟨_, hold⟩ | ⟨j, a', y, hij, _, _, _⟩
      · subst hold hb
        exact hfp ⟨t, b, hp'⟩
      · subst hij
        simp at hi
    · have : nx = none := by
        rcases hnx with h1 | ⟨h1, _⟩
        · simpa using h1
        · exact h1
      simp [get_next, deref, hnode, this]
  · intro ht
    refine ⟨⟨{ s with cons := .inPop (.readNext (some a)) },
      by simp [sysStep, hc, popStep, ht], rfl, rfl⟩, ?_⟩
    cases rest with
    | nil =>
      exfalso
      apply ht
      simpa using hI.tail
    | cons c r =>
      obtain ⟨b, y⟩ := c
      cases nx with
      | some n => exact Or.inl ⟨n, by simp [get_next, deref, hnode]⟩
      | none =>
        have hn : get_next s.mem.heap (some a) = .ok none := by simp [get_next, deref, hnode]
        obtain ⟨t, ht'⟩ := absent_next_in_flight hI rfl hn
        exact Or.inr ⟨hn, t, b, ht'⟩

end Steps

end IOQueue
